import Mathlib

/-!
# Verification of the `DList` doubly-linked list container

A shallow embedding of `DList.hpp` / `DListNode.hpp`: a generic doubly-linked
list with Python-list-style semantics (signed positions, clamping insert,
silent-default pop, first-occurrence remove, sentinel-returning search).

Pointers are modelled by an explicit heap: every node ever allocated lives in
a `Heap α` (a list of nodes) and is addressed by its index.  A `shared_ptr`
or a locked `weak_ptr` to a node is an `Option Nat` (`none` = null).  Nodes
are never physically removed from the heap — dropping the last reference in
C++ frees memory but has no observable effect on the operations verified
here, since well-formed lists never follow links into freed nodes.

The C++ `long _size` is modelled by `Int` (no operation verified here comes
anywhere near the 2^63 wrap); `size_t` results of `index` are modelled by
`Nat` with `(size_t)(-1) = 2^64 - 1` as the explicit not-found sentinel.
Unguarded null dereferences of the source (e.g. `operator[]` on an
out-of-range position) are total-ised with a `default`/no-op fallback and
are proved unreachable on well-formed lists where the claims need it.
-/

namespace DListSpec

/-- Embeds `DListNode<ItemType>` (`DListNode.hpp`): one element `_item`, an
owning forward link `_next` (`shared_ptr`) and a non-owning back link
`_prev` (`weak_ptr`), both modelled as optional heap indices. -/
structure DListNode (α : Type) where
  item : α
  next : Option Nat
  prev : Option Nat
deriving DecidableEq, Repr

/-- The heap of all allocated nodes; a node's identity is its index.
Allocation appends at the end. -/
abbrev Heap (α : Type) := List (DListNode α)

/-- Embeds the handle part of `DList<ItemType>`: `_head`, `_tail`
(`shared_ptr`s, i.e. optional heap indices) and `_size` (a C++ `long`). -/
structure DList (α : Type) where
  head : Option Nat
  tail : Option Nat
  size : Int
deriving DecidableEq, Repr

variable {α : Type}

/-- Reading node `i`'s `_item` (`none` when `i` is not an allocated node). -/
def itemAt (h : Heap α) (i : Nat) : Option α :=
  (h[i]?).map fun nd => nd.item

/-- Reading node `i`'s `_next`. -/
def nextAt (h : Heap α) (i : Nat) : Option (Option Nat) :=
  (h[i]?).map fun nd => nd.next

/-- Reading node `i`'s `_prev`. -/
def prevAt (h : Heap α) (i : Nat) : Option (Option Nat) :=
  (h[i]?).map fun nd => nd.prev

/-- Reading node `i`'s `_item` with a default for the unreachable
unallocated case. -/
def itemAtD [Inhabited α] (h : Heap α) (i : Nat) : α :=
  match h[i]? with
  | some nd => nd.item
  | none => default

/-- The heap after the assignment `node_i->_next = v`. -/
def setNext (h : Heap α) (i : Nat) (v : Option Nat) : Heap α :=
  match h[i]? with
  | some nd => h.set i ⟨nd.item, v, nd.prev⟩
  | none => h

/-- The heap after the assignment `node_i->_prev = v`. -/
def setPrev (h : Heap α) (i : Nat) (v : Option Nat) : Heap α :=
  match h[i]? with
  | some nd => h.set i ⟨nd.item, nd.next, v⟩
  | none => h

/-- The heap after the assignment `node_i->_item = v` (writing through the
reference returned by the mutable `operator[]`). -/
def setItem (h : Heap α) (i : Nat) (v : α) : Heap α :=
  match h[i]? with
  | some nd => h.set i ⟨v, nd.next, nd.prev⟩
  | none => h

/-- Embeds the default constructor `DList::DList()`:
`_head = nullptr; _tail = nullptr; _size = 0;`. -/
def DList.empty : DList α := ⟨none, none, 0⟩

/-- Embeds `DList::append(x)`: allocate a node holding `x`; if the list is
empty it becomes both head and tail, otherwise it is linked after the old
tail.  (The `else` branch dereferences `_tail`, which on a well-formed
non-empty list is never null; the null case is total-ised as a no-op.) -/
def append (h : Heap α) (l : DList α) (x : α) : Heap α × DList α :=
  let id := h.length
  if l.size = 0 then
    (h ++ [⟨x, none, none⟩], ⟨some id, some id, l.size + 1⟩)
  else
    match l.tail with
    | some t =>
        (setNext (h ++ [⟨x, none, some t⟩]) t (some id),
         ⟨l.head, some id, l.size + 1⟩)
    | none => (h, l)

/-- Forward walk: `for (i = 0; i < k; i++) current = current->_next;`.
A null dereference along the way is total-ised to `none`. -/
def walkFwd (h : Heap α) : Option Nat → Nat → Option Nat
  | cur, 0 => cur
  | none, _ + 1 => none
  | some i, k + 1 => walkFwd h ((h[i]?).bind fun nd => nd.next) k

/-- Backward walk: `for (i = -1; i > position; i--)
current = current->_prev.lock();`, i.e. `k` steps through `_prev`. -/
def walkBwd (h : Heap α) : Option Nat → Nat → Option Nat
  | cur, 0 => cur
  | none, _ + 1 => none
  | some i, k + 1 => walkBwd h ((h[i]?).bind fun nd => nd.prev) k

/-- Embeds `DList::_find(position)`: out-of-range positions resolve to null;
non-negative positions walk forward from `_head`, negative ones walk
backward from `_tail` (`-1` is the tail itself). -/
def _find (h : Heap α) (l : DList α) (position : Int) : Option Nat :=
  if position ≥ l.size ∨ position < -l.size then none
  else if position ≥ 0 then walkFwd h l.head position.toNat
  else walkBwd h l.tail (-1 - position).toNat

/-- Embeds the const `DList::operator[](position)`:
`return _find(position)->_item;`.  The unguarded dereference of a null
result is total-ised to `default`; claim C9 proves it unreachable under the
documented precondition. -/
def getPos [Inhabited α] (h : Heap α) (l : DList α) (position : Int) : α :=
  match _find h l position with
  | some i => itemAtD h i
  | none => default

/-- Embeds an assignment through the mutable `DList::operator[](position)`:
`(*this)[position] = v`.  The null-dereference case is total-ised to a
heap no-op. -/
def setPos (h : Heap α) (l : DList α) (position : Int) (v : α) : Heap α :=
  match _find h l position with
  | some i => setItem h i v
  | none => h

/-- Embeds `DList::clear()`: `_head = _tail = nullptr; _size = 0;`.
The heap keeps the (now unreferenced) nodes; C++ frees them, which is
unobservable to the verified operations. -/
def clear (_l : DList α) : DList α := ⟨none, none, 0⟩

/-- The position-normalization lines at the top of `DList::insert`:
add `_size` to a negative position, clamp below by 0, clamp above by
`_size`. -/
def clampPos (size : Int) (position : Int) : Int :=
  let p1 := if position < 0 then position + size else position
  let p2 := if p1 < 0 then 0 else p1
  if p2 > size then size else p2

/-- Embeds `DList::insert(position, x)`: normalize (add `_size` when
negative, clamp below by 0 and above by `_size`); append when the clamped
position is `_size` (or the list is empty); otherwise splice a new node
right before the node found at the clamped position. -/
def insert (h : Heap α) (l : DList α) (position : Int) (x : α) :
    Heap α × DList α :=
  let p3 := clampPos l.size position
  if l.size = 0 ∨ p3 = l.size then append h l x
  else
    match _find h l p3 with
    | some c =>
        let previous := (h[c]?).bind fun nd => nd.prev
        let id := h.length
        let h1 := h ++ [⟨x, some c, previous⟩]
        let h2 := match previous with
                  | some p => setNext h1 p (some id)
                  | none => h1
        let head2 := match previous with
                  | some _ => l.head
                  | none => some id
        (setPrev h2 c (some id), ⟨head2, l.tail, l.size + 1⟩)
    | none => (h, l)

/-- The unlink surgery shared verbatim by `DList::_delete` and
`DList::remove`: given the fields of the node being removed, redirect the
predecessor's `_next` (or `_head`) to the successor and the successor's
`_prev` (or `_tail`) to the predecessor, and decrement `_size`. -/
def unlinkNode (h : Heap α) (l : DList α) (nd : DListNode α) :
    Heap α × DList α :=
  let h1 := match nd.prev with
            | some pp => setNext h pp nd.next
            | none => h
  let head1 := match nd.prev with
            | some _ => l.head
            | none => nd.next
  let h2 := match nd.next with
            | some nx => setPrev h1 nx nd.prev
            | none => h1
  let tail1 := match nd.next with
            | some _ => l.tail
            | none => nd.prev
  (h2, ⟨head1, tail1, l.size - 1⟩)

/-- Embeds `DList::_delete(position)`: normalize a negative position by
adding `_size`; if still outside `[0, _size)` return a default-constructed
element leaving everything untouched; otherwise unlink the node found there
and return its element. -/
def _delete [Inhabited α] (h : Heap α) (l : DList α) (position : Int) :
    α × Heap α × DList α :=
  let p := if position < 0 then position + l.size else position
  if p < 0 ∨ p ≥ l.size then (default, h, l)
  else
    match _find h l p with
    | some c =>
        match h[c]? with
        | some nd => (nd.item, unlinkNode h l nd)
        | none => (default, h, l)
    | none => (default, h, l)

/-- Embeds `DList::pop(position)` (C++ default argument `position = -1`):
`return _delete(position);`. -/
def pop [Inhabited α] (h : Heap α) (l : DList α) (position : Int) :
    α × Heap α × DList α :=
  _delete h l position

/-- The scan loop of `DList::remove(x)`: walk forward from `_head`, unlink
the first node whose element equals `x`; fall off the end without change.
`fuel` bounds the loop for totality; on well-formed lists it is never
exhausted. -/
def removeLoop [DecidableEq α] (h : Heap α) (l : DList α) (x : α) :
    Option Nat → Nat → Heap α × DList α
  | _, 0 => (h, l)
  | none, _ + 1 => (h, l)
  | some i, fuel + 1 =>
    match h[i]? with
    | none => (h, l)
    | some nd =>
        if nd.item = x then unlinkNode h l nd
        else removeLoop h l x nd.next fuel

/-- Embeds `DList::remove(x)`. -/
def remove [DecidableEq α] (h : Heap α) (l : DList α) (x : α) :
    Heap α × DList α :=
  removeLoop h l x l.head (h.length + 1)

/-- `(size_t)(-1)`, the not-found sentinel returned by `DList::index`
(`size_t` is 64 bits wide on the platforms this code targets). -/
def NOT_FOUND : Nat := 2 ^ 64 - 1

/-- The implicit `size_t → long` conversion at the call `_find(start)`
inside `DList::index`: a value below `2^63` is preserved, a larger one
wraps to its two's-complement negative (`2^64 - 2` becomes `-2`).
Intended for `size_t` values, i.e. arguments below `2^64`. -/
def longOfSizeT (n : Nat) : Int :=
  if n < 2 ^ 63 then (n : Int) else (n : Int) - 2 ^ 64

/-- The scan loop of `DList::index(x, start)`: walk forward from the node
resolved for `start`, counting positions in the `size_t` counter `index`
(`++index` wraps modulo `2^64`); return the counter at the first element
equal to `x`, or the sentinel after falling off the end.  `fuel` bounds
the loop for totality; on well-formed lists it is never exhausted. -/
def indexLoop [DecidableEq α] (h : Heap α) (x : α) :
    Option Nat → Nat → Nat → Nat
  | _, _, 0 => NOT_FOUND
  | none, _, _ + 1 => NOT_FOUND
  | some i, idx, fuel + 1 =>
    match h[i]? with
    | none => NOT_FOUND
    | some nd =>
        if nd.item = x then idx
        else indexLoop h x nd.next ((idx + 1) % 2 ^ 64) fuel

/-- Embeds `DList::index(x, start)` (C++ default argument `start = 0`).
`start` is a `size_t`, but `_find` takes a `long`: the argument the scan
starts from goes through the wrapping conversion `longOfSizeT`, so a
`start` at or above `2^63` becomes negative and resolves a tail-relative
node instead of hitting the out-of-range guard. -/
def index [DecidableEq α] (h : Heap α) (l : DList α) (x : α) (start : Nat) :
    Nat :=
  indexLoop h x (_find h l (longOfSizeT start)) start (h.length + 1)

/-- The loop body shared by both branches of `DList::extend`:
`append(node->_item); node = node->_next;` — note that `node->_next` is
read *after* the append, from the mutated heap (this is what makes
self-extension terminate correctly in the source). -/
def extendStep (h : Heap α) (l : DList α) (i : Nat) :
    Heap α × DList α × Option Nat :=
  match h[i]? with
  | none => (h, l, none)
  | some nd =>
      let r := append h l nd.item
      (r.1, r.2, (r.1[i]?).bind fun nd2 => nd2.next)

/-- The self-extension branch of `DList::extend` (`&otherList == this`):
`long n = _size;` then exactly `n` iterations of the loop body, starting at
`_head`.  The loop has no null test (the source dereferences `node`
unconditionally); the null case is total-ised as an early stop, proved
unreachable on well-formed lists. -/
def extendSelfLoop (h : Heap α) (l : DList α) :
    Option Nat → Nat → Heap α × DList α
  | _, 0 => (h, l)
  | none, _ + 1 => (h, l)
  | some i, n + 1 =>
      let r := extendStep h l i
      extendSelfLoop r.1 r.2.1 r.2.2 n

/-- Embeds `DList::extend(otherList)` in the aliased case
`&otherList == this`. -/
def extendSelf (h : Heap α) (l : DList α) : Heap α × DList α :=
  extendSelfLoop h l l.head l.size.toNat

/-- The normal-case loop of `DList::extend`: `while (node != nullptr)`
iterations of the same body, walking `otherList`'s chain. `fuel` bounds the
loop for totality; on well-formed lists it is never exhausted. -/
def extendOtherLoop (h : Heap α) (l : DList α) :
    Option Nat → Nat → Heap α × DList α
  | _, 0 => (h, l)
  | none, _ + 1 => (h, l)
  | some i, fuel + 1 =>
      let r := extendStep h l i
      extendOtherLoop r.1 r.2.1 r.2.2 fuel

/-- Embeds `DList::extend(otherList)` in the non-aliased case
`&otherList != this`. -/
def extendOther (h : Heap α) (l : DList α) (other : DList α) :
    Heap α × DList α :=
  extendOtherLoop h l other.head (h.length + 1)

/-- The copy loop of `DList::_copy`: `newNode->_next = make_shared(item,
newNode); newNode = newNode->_next; sourceNode = sourceNode->_next;` —
`sourceNode->_next` is read after the heap mutation, which only touches
freshly allocated nodes.  Returns the heap and the id of the last node
built.  `fuel` bounds the loop for totality. -/
def copyLoop (h : Heap α) : Option Nat → Nat → Nat → Heap α × Nat
  | _, newNode, 0 => (h, newNode)
  | none, newNode, _ + 1 => (h, newNode)
  | some i, newNode, fuel + 1 =>
    match h[i]? with
    | none => (h, newNode)
    | some nd =>
        let id := h.length
        let h1 := setNext (h ++ [⟨nd.item, none, some newNode⟩]) newNode (some id)
        copyLoop h1 ((h1[i]?).bind fun nd2 => nd2.next) id fuel

/-- Embeds `DList::_copy(source)`: deep-copy `source`'s chain node by node;
the result handle is fully determined by the loop (`_head` is the first new
node or reset to null, `_tail` the last `newNode`, `_size` copied). -/
def _copy (h : Heap α) (source : DList α) : Heap α × DList α :=
  match source.head with
  | none => (h, ⟨none, none, source.size⟩)
  | some i0 =>
    match h[i0]? with
    | none => (h, ⟨none, none, source.size⟩)
    | some nd0 =>
        let id := h.length
        let h1 := h ++ [⟨nd0.item, none, none⟩]
        let r := copyLoop h1 ((h1[i0]?).bind fun nd => nd.next) id (h.length + 1)
        (r.1, ⟨some id, some r.2, source.size⟩)

/-- Embeds the copy constructor `DList::DList(const DList&)`:
`_copy(source);` on default-null members. -/
def copyCtor (h : Heap α) (source : DList α) : Heap α × DList α :=
  _copy h source

/-- Embeds `DList::operator=(source)`.  The C++ guard `this != &source` is
object identity, which a pure model carries as the flag `same`; when the
objects differ it clears the destination handle and rebuilds it with
`_copy` (the cleared handle fields are entirely overwritten, so the
destination handle does not appear in the result). -/
def assign (h : Heap α) (dst source : DList α) (same : Bool) :
    Heap α × DList α :=
  if same then (h, dst) else _copy h source

/-! ## Well-formedness: the structural invariant of §3 of the spec -/

/-- The chain conditions over a heap for a putative list of node ids:
each listed node is allocated, its `_next` is the following id (null at the
end) and its `_prev` the preceding id (null at the front) — the mutual
next/prev consistency invariant — and ids are pairwise distinct. -/
def chainConds (h : Heap α) (ids : List Nat) : Prop :=
  ids.Nodup ∧
  (∀ j, (hj : j < ids.length) →
    nextAt h ids[j] = some ids[j + 1]? ∧
    prevAt h ids[j] = some (if j = 0 then none else ids[j - 1]?))

/-- Well-formedness of a list handle with an explicit spine `ids`:
`_head` is the first id, `_tail` the last, `_size` the number of nodes, and
the chain conditions hold.  This is the structural invariant of §3. -/
def WFIds (h : Heap α) (l : DList α) (ids : List Nat) : Prop :=
  l.head = ids.head? ∧
  l.tail = ids.getLast? ∧
  l.size = (ids.length : Int) ∧
  chainConds h ids

instance (h : Heap α) (ids : List Nat) : Decidable (chainConds h ids) := by
  unfold chainConds; exact inferInstance

instance (h : Heap α) (l : DList α) (ids : List Nat) :
    Decidable (WFIds h l ids) := by
  unfold WFIds; exact inferInstance

/-- Well-formedness of a list handle: some spine witnesses it. -/
def WF (h : Heap α) (l : DList α) : Prop :=
  ∃ ids, WFIds h l ids

/-- The elements of a list with spine `ids`, in order. -/
def itemsOf [Inhabited α] (h : Heap α) (ids : List Nat) : List α :=
  ids.map (itemAtD h)

/-- Insertion of `b` at index `p` of a list (clamped to the end), used to
state what `insert` does to the element sequence. -/
def listInsertAt (xs : List β) (p : Nat) (b : β) : List β :=
  xs.take p ++ b :: xs.drop p

/-- Removal of index `p` from a list, used to state what `_delete` and
`remove` do to the element sequence. -/
def listEraseAt (xs : List β) (p : Nat) : List β :=
  xs.take p ++ xs.drop (p + 1)

/-- The position of the first occurrence of `x`, used to state `remove`
and `index`. -/
def firstIdxOf [DecidableEq α] (x : α) : List α → Option Nat
  | [] => none
  | a :: as => if a = x then some 0 else (firstIdxOf x as).map (· + 1)

/-- A list built by `n` successive `append`s of `vs = [v0, …, v(n-1)]` onto
a default-constructed `DList` in a fresh heap (the `make_list` pattern of
the repository's tests). -/
def buildList (vs : List α) : Heap α × DList α :=
  vs.foldl (fun s v => append s.1 s.2 v) ([], DList.empty)

/-- A concrete two-node heap — the list `[7, 8]` with node `0` linked to
node `1` — used to exercise the theorems on closed inputs. -/
def wHeap : Heap Int := [⟨7, some 1, none⟩, ⟨8, none, some 0⟩]

/-- The handle of the two-element list `[7, 8]` living in `wHeap`. -/
def wList : DList Int := ⟨some 0, some 1, 2⟩

/-- A concrete heap holding two disjoint lists: `[7]` on node `0` and
`[8, 9]` on nodes `1, 2`. -/
def wHeap3 : Heap Int :=
  [⟨7, none, none⟩, ⟨8, some 2, none⟩, ⟨9, none, some 1⟩]

/-- The handle of the one-element list `[7]` living in `wHeap3`. -/
def wListA : DList Int := ⟨some 0, some 0, 1⟩

/-- The handle of the two-element list `[8, 9]` living in `wHeap3`. -/
def wListB : DList Int := ⟨some 1, some 2, 2⟩

/-! ## Basic facts about the heap primitives -/

theorem length_setNext (h : Heap α) (i : Nat) (v : Option Nat) :
    (setNext h i v).length = h.length := by
  unfold setNext; cases hx : h[i]? <;> simp

theorem length_setPrev (h : Heap α) (i : Nat) (v : Option Nat) :
    (setPrev h i v).length = h.length := by
  unfold setPrev; cases hx : h[i]? <;> simp

theorem length_setItem (h : Heap α) (i : Nat) (v : α) :
    (setItem h i v).length = h.length := by
  unfold setItem; cases hx : h[i]? <;> simp

theorem getElem?_setNext_ne (h : Heap α) {i j : Nat} (v : Option Nat)
    (hij : j ≠ i) : (setNext h i v)[j]? = h[j]? := by
  unfold setNext; cases hx : h[i]? with
  | none => rfl
  | some nd => exact List.getElem?_set_ne (Ne.symm hij)

theorem getElem?_setPrev_ne (h : Heap α) {i j : Nat} (v : Option Nat)
    (hij : j ≠ i) : (setPrev h i v)[j]? = h[j]? := by
  unfold setPrev; cases hx : h[i]? with
  | none => rfl
  | some nd => exact List.getElem?_set_ne (Ne.symm hij)

theorem getElem?_setItem_ne (h : Heap α) {i j : Nat} (v : α)
    (hij : j ≠ i) : (setItem h i v)[j]? = h[j]? := by
  unfold setItem; cases hx : h[i]? with
  | none => rfl
  | some nd => exact List.getElem?_set_ne (Ne.symm hij)

theorem itemAt_setNext (h : Heap α) (i : Nat) (v : Option Nat) (j : Nat) :
    itemAt (setNext h i v) j = itemAt h j := by
  unfold itemAt setNext
  cases hx : h[i]? with
  | none => rfl
  | some nd =>
    by_cases hji : j = i
    · subst hji
      have hlt := (List.getElem?_eq_some_iff.mp hx).1
      rw [List.getElem?_set_self hlt, hx]
      rfl
    · rw [List.getElem?_set_ne (Ne.symm hji)]

theorem prevAt_setNext (h : Heap α) (i : Nat) (v : Option Nat) (j : Nat) :
    prevAt (setNext h i v) j = prevAt h j := by
  unfold prevAt setNext
  cases hx : h[i]? with
  | none => rfl
  | some nd =>
    by_cases hji : j = i
    · subst hji
      have hlt := (List.getElem?_eq_some_iff.mp hx).1
      rw [List.getElem?_set_self hlt, hx]
      rfl
    · rw [List.getElem?_set_ne (Ne.symm hji)]

theorem itemAt_setPrev (h : Heap α) (i : Nat) (v : Option Nat) (j : Nat) :
    itemAt (setPrev h i v) j = itemAt h j := by
  unfold itemAt setPrev
  cases hx : h[i]? with
  | none => rfl
  | some nd =>
    by_cases hji : j = i
    · subst hji
      have hlt := (List.getElem?_eq_some_iff.mp hx).1
      rw [List.getElem?_set_self hlt, hx]
      rfl
    · rw [List.getElem?_set_ne (Ne.symm hji)]

theorem nextAt_setPrev (h : Heap α) (i : Nat) (v : Option Nat) (j : Nat) :
    nextAt (setPrev h i v) j = nextAt h j := by
  unfold nextAt setPrev
  cases hx : h[i]? with
  | none => rfl
  | some nd =>
    by_cases hji : j = i
    · subst hji
      have hlt := (List.getElem?_eq_some_iff.mp hx).1
      rw [List.getElem?_set_self hlt, hx]
      rfl
    · rw [List.getElem?_set_ne (Ne.symm hji)]

theorem nextAt_setItem (h : Heap α) (i : Nat) (v : α) (j : Nat) :
    nextAt (setItem h i v) j = nextAt h j := by
  unfold nextAt setItem
  cases hx : h[i]? with
  | none => rfl
  | some nd =>
    by_cases hji : j = i
    · subst hji
      have hlt := (List.getElem?_eq_some_iff.mp hx).1
      rw [List.getElem?_set_self hlt, hx]
      rfl
    · rw [List.getElem?_set_ne (Ne.symm hji)]

theorem prevAt_setItem (h : Heap α) (i : Nat) (v : α) (j : Nat) :
    prevAt (setItem h i v) j = prevAt h j := by
  unfold prevAt setItem
  cases hx : h[i]? with
  | none => rfl
  | some nd =>
    by_cases hji : j = i
    · subst hji
      have hlt := (List.getElem?_eq_some_iff.mp hx).1
      rw [List.getElem?_set_self hlt, hx]
      rfl
    · rw [List.getElem?_set_ne (Ne.symm hji)]

theorem nextAt_setNext_self (h : Heap α) {i : Nat} (v : Option Nat)
    (hi : i < h.length) : nextAt (setNext h i v) i = some v := by
  unfold nextAt setNext
  rw [List.getElem?_eq_getElem hi]
  rw [List.getElem?_set_self hi]
  rfl

theorem prevAt_setPrev_self (h : Heap α) {i : Nat} (v : Option Nat)
    (hi : i < h.length) : prevAt (setPrev h i v) i = some v := by
  unfold prevAt setPrev
  rw [List.getElem?_eq_getElem hi]
  rw [List.getElem?_set_self hi]
  rfl

theorem itemAt_setItem_self (h : Heap α) {i : Nat} (v : α)
    (hi : i < h.length) : itemAt (setItem h i v) i = some v := by
  unfold itemAt setItem
  rw [List.getElem?_eq_getElem hi]
  rw [List.getElem?_set_self hi]
  rfl

theorem itemAt_append_left (h ext : Heap α) {i : Nat} (hi : i < h.length) :
    itemAt (h ++ ext) i = itemAt h i := by
  unfold itemAt; rw [List.getElem?_append_left hi]

theorem nextAt_append_left (h ext : Heap α) {i : Nat} (hi : i < h.length) :
    nextAt (h ++ ext) i = nextAt h i := by
  unfold nextAt; rw [List.getElem?_append_left hi]

theorem prevAt_append_left (h ext : Heap α) {i : Nat} (hi : i < h.length) :
    prevAt (h ++ ext) i = prevAt h i := by
  unfold prevAt; rw [List.getElem?_append_left hi]

theorem lt_of_nextAt {h : Heap α} {i : Nat} {v : Option Nat}
    (hx : nextAt h i = some v) : i < h.length := by
  unfold nextAt at hx
  cases hh : h[i]? with
  | none => rw [hh] at hx; simp at hx
  | some nd => exact (List.getElem?_eq_some_iff.mp hh).1

theorem bind_next_eq {h : Heap α} {i : Nat} {v : Option Nat}
    (hx : nextAt h i = some v) : ((h[i]?).bind fun nd => nd.next) = v := by
  unfold nextAt at hx
  cases hh : h[i]? with
  | none => rw [hh] at hx; simp at hx
  | some nd => rw [hh] at hx; simpa using hx

theorem bind_prev_eq {h : Heap α} {i : Nat} {v : Option Nat}
    (hx : prevAt h i = some v) : ((h[i]?).bind fun nd => nd.prev) = v := by
  unfold prevAt at hx
  cases hh : h[i]? with
  | none => rw [hh] at hx; simp at hx
  | some nd => rw [hh] at hx; simpa using hx

theorem itemAtD_eq [Inhabited α] {h : Heap α} {i : Nat} {v : α}
    (hx : itemAt h i = some v) : itemAtD h i = v := by
  unfold itemAt at hx; unfold itemAtD
  cases hh : h[i]? with
  | none => rw [hh] at hx; simp at hx
  | some nd => rw [hh] at hx; simpa using hx

/-! ## Projections of well-formedness -/

theorem WFIds.headEq {h : Heap α} {l : DList α} {ids : List Nat}
    (hwf : WFIds h l ids) : l.head = ids.head? := hwf.1

theorem WFIds.tailEq {h : Heap α} {l : DList α} {ids : List Nat}
    (hwf : WFIds h l ids) : l.tail = ids.getLast? := hwf.2.1

theorem WFIds.sizeEq {h : Heap α} {l : DList α} {ids : List Nat}
    (hwf : WFIds h l ids) : l.size = (ids.length : Int) := hwf.2.2.1

theorem WFIds.nodup {h : Heap α} {l : DList α} {ids : List Nat}
    (hwf : WFIds h l ids) : ids.Nodup := hwf.2.2.2.1

theorem WFIds.nextOf {h : Heap α} {l : DList α} {ids : List Nat}
    (hwf : WFIds h l ids) {j : Nat} (hj : j < ids.length) :
    nextAt h ids[j] = some ids[j + 1]? := (hwf.2.2.2.2 j hj).1

theorem WFIds.prevOf {h : Heap α} {l : DList α} {ids : List Nat}
    (hwf : WFIds h l ids) {j : Nat} (hj : j < ids.length) :
    prevAt h ids[j] = some (if j = 0 then none else ids[j - 1]?) :=
  (hwf.2.2.2.2 j hj).2

theorem WFIds.valid {h : Heap α} {l : DList α} {ids : List Nat}
    (hwf : WFIds h l ids) {j : Nat} (hj : j < ids.length) :
    ids[j] < h.length :=
  lt_of_nextAt (hwf.nextOf hj)

theorem WFIds.mem_valid {h : Heap α} {l : DList α} {ids : List Nat}
    (hwf : WFIds h l ids) {i : Nat} (hi : i ∈ ids) : i < h.length := by
  obtain ⟨j, hj, rfl⟩ := List.mem_iff_getElem.mp hi
  exact hwf.valid hj

/-- Rebuilding well-formedness over a heap that agrees with the old one on
every node of the spine. -/
theorem WFIds.frame {h h2 : Heap α} {l : DList α} {ids : List Nat}
    (hwf : WFIds h l ids) (hag : ∀ i, i ∈ ids → h2[i]? = h[i]?) :
    WFIds h2 l ids := by
  refine ⟨hwf.headEq, hwf.tailEq, hwf.sizeEq, hwf.nodup, ?_⟩
  intro j hj
  have hmem : ids[j] ∈ ids := List.getElem_mem hj
  have hag2 := hag _ hmem
  constructor
  · rw [show nextAt h2 ids[j] = nextAt h ids[j] by unfold nextAt; rw [hag2]]
    exact hwf.nextOf hj
  · rw [show prevAt h2 ids[j] = prevAt h ids[j] by unfold prevAt; rw [hag2]]
    exact hwf.prevOf hj

/-! ## Walk lemmas -/

theorem walkFwd_none (h : Heap α) (k : Nat) : walkFwd h none k = none := by
  cases k <;> rfl

theorem walkBwd_none (h : Heap α) (k : Nat) : walkBwd h none k = none := by
  cases k <;> rfl

/-- Forward traversal along a well-formed spine: `k` steps from position
`j` land on position `j + k` (or null past the end). -/
theorem walkFwd_wf {h : Heap α} {l : DList α} {ids : List Nat}
    (hwf : WFIds h l ids) :
    ∀ k j, walkFwd h ids[j]? k = ids[j + k]? := by
  intro k
  induction k with
  | zero =>
    intro j
    rw [Nat.add_zero]
    cases hc : ids[j]? <;> simp [walkFwd]
  | succ n ih =>
    intro j
    by_cases hj : j < ids.length
    · rw [List.getElem?_eq_getElem hj]
      have step : walkFwd h (some ids[j]) (n + 1)
          = walkFwd h ((h[ids[j]]?).bind fun nd => nd.next) n := rfl
      rw [step, bind_next_eq (hwf.nextOf hj), ih (j + 1)]
      congr 1
      omega
    · rw [List.getElem?_eq_none (by omega), walkFwd_none, Eq.comm,
        List.getElem?_eq_none (by omega)]

/-- Backward traversal along a well-formed spine: `k` steps back from
position `j` land on position `j - k` (or null past the front). -/
theorem walkBwd_wf {h : Heap α} {l : DList α} {ids : List Nat}
    (hwf : WFIds h l ids) :
    ∀ k j, (hj : j < ids.length) →
      walkBwd h (some ids[j]) k = if k ≤ j then ids[j - k]? else none := by
  intro k
  induction k with
  | zero =>
    intro j hj
    rw [if_pos (Nat.zero_le j), Nat.sub_zero, List.getElem?_eq_getElem hj]
    simp [walkBwd]
  | succ n ih =>
    intro j hj
    have step : walkBwd h (some ids[j]) (n + 1)
        = walkBwd h ((h[ids[j]]?).bind fun nd => nd.prev) n := rfl
    rw [step, bind_prev_eq (hwf.prevOf hj)]
    by_cases hj0 : j = 0
    · subst hj0
      rw [if_pos rfl, walkBwd_none, if_neg (by omega)]
    · rw [if_neg hj0]
      have hj1 : j - 1 < ids.length := by omega
      rw [List.getElem?_eq_getElem hj1, ih (j - 1) hj1]
      by_cases hn : n + 1 ≤ j
      · rw [if_pos (by omega), if_pos hn]
        congr 1
        omega
      · rw [if_neg (by omega), if_neg hn]

/-! ## Resolution lemmas for `_find` -/

/-- The explicit guard of `_find`: out-of-range positions resolve to null.
This needs no well-formedness. -/
theorem _find_out {h : Heap α} {l : DList α} {p : Int}
    (hp : p ≥ l.size ∨ p < -l.size) : _find h l p = none := by
  unfold _find
  rw [if_pos hp]

/-- On a well-formed list, a non-negative in-range position resolves to the
node at that index of the spine. -/
theorem _find_nonneg {h : Heap α} {l : DList α} {ids : List Nat}
    (hwf : WFIds h l ids) {p : Int} (h0 : 0 ≤ p) (hs : p < l.size) :
    _find h l p = ids[p.toNat]? := by
  have hsz := hwf.sizeEq
  unfold _find
  rw [if_neg (by omega), if_pos (by omega)]
  rw [hwf.headEq, List.head?_eq_getElem?]
  have := walkFwd_wf hwf p.toNat 0
  simpa using this

/-- On a well-formed list, a negative in-range position resolves to the
node at index `p + size` of the spine. -/
theorem _find_neg {h : Heap α} {l : DList α} {ids : List Nat}
    (hwf : WFIds h l ids) {p : Int} (h0 : p < 0) (hs : -l.size ≤ p) :
    _find h l p = ids[(p + l.size).toNat]? := by
  have hsz := hwf.sizeEq
  have hlen : 0 < ids.length := by omega
  unfold _find
  rw [if_neg (by omega), if_neg (by omega)]
  have hlast : l.tail = ids[ids.length - 1]? := by
    rw [hwf.tailEq, List.getLast?_eq_getElem?]
  have hj : ids.length - 1 < ids.length := by omega
  rw [hlast, List.getElem?_eq_getElem hj,
    walkBwd_wf hwf (-1 - p).toNat (ids.length - 1) hj,
    if_pos (by omega)]
  congr 1
  omega

/-- On a well-formed list, whatever `_find` resolves is a node of the
spine. -/
theorem _find_mem {h : Heap α} {l : DList α} {ids : List Nat} {p : Int}
    {i : Nat} (hwf : WFIds h l ids) (hf : _find h l p = some i) : i ∈ ids := by
  have hsz := hwf.sizeEq
  by_cases hout : p ≥ l.size ∨ p < -l.size
  · rw [_find_out hout] at hf
    exact absurd hf (by simp)
  · by_cases h0 : 0 ≤ p
    · rw [_find_nonneg hwf h0 (by omega)] at hf
      exact List.getElem?_mem hf
    · rw [_find_neg hwf (by omega) (by omega)] at hf
      exact List.getElem?_mem hf

/-! ## Element sequences -/

theorem length_itemsOf [Inhabited α] (h : Heap α) (ids : List Nat) :
    (itemsOf h ids).length = ids.length := List.length_map ids (itemAtD h)

theorem getElem_itemsOf [Inhabited α] (h : Heap α) (ids : List Nat) {j : Nat}
    (hj : j < ids.length) :
    getElem (itemsOf h ids) j (by rw [length_itemsOf]; exact hj)
      = itemAtD h ids[j] :=
  List.getElem_map (itemAtD h)

theorem itemAtD_congr [Inhabited α] {h h2 : Heap α} {i : Nat}
    (hag : itemAt h2 i = itemAt h i) : itemAtD h2 i = itemAtD h i := by
  unfold itemAt at hag
  unfold itemAtD
  cases hx : h2[i]? with
  | none =>
    rw [hx] at hag
    cases hy : h[i]? with
    | none => rfl
    | some nd => rw [hy] at hag; simp at hag
  | some nd =>
    rw [hx] at hag
    cases hy : h[i]? with
    | none => rw [hy] at hag; simp at hag
    | some nd2 => rw [hy] at hag; simpa using hag

theorem itemsOf_congr [Inhabited α] {h h2 : Heap α} {ids : List Nat}
    (hag : ∀ i, i ∈ ids → itemAt h2 i = itemAt h i) :
    itemsOf h2 ids = itemsOf h ids :=
  List.map_congr_left fun i hi => itemAtD_congr (hag i hi)

/-! ## Small list helpers -/

theorem head?_append_of_ne_nil {xs : List β} (ys : List β) (hx : xs ≠ []) :
    (xs ++ ys).head? = xs.head? := by
  cases xs with
  | nil => exact absurd rfl hx
  | cons a as => rfl

theorem nodup_concat {xs : List Nat} {n : Nat} (hx : xs.Nodup)
    (hn : n ∉ xs) : (xs ++ [n]).Nodup := by
  simp [List.nodup_append, hx, hn]

theorem WFIds.fresh_not_mem {h : Heap α} {l : DList α} {ids : List Nat}
    (hwf : WFIds h l ids) {n : Nat} (hn : h.length ≤ n) : n ∉ ids := by
  intro hmem
  have := hwf.mem_valid hmem
  omega

/-! ## Specification of `append` -/

/-- What `append` does to a well-formed list: the new node is allocated at
the end of the heap, the spine grows by that node, the element sequence
grows by `x`, and every other allocated node — in particular every node of
any other list — is untouched (only the old tail's `_next` changes, and
even there `_item` and `_prev` survive). -/
theorem append_spec [Inhabited α] {h : Heap α} {l : DList α} {ids : List Nat}
    (hwf : WFIds h l ids) (x : α) :
    WFIds (append h l x).1 (append h l x).2 (ids ++ [h.length]) ∧
    (append h l x).1.length = h.length + 1 ∧
    (∀ i, i < h.length → i ∉ ids → (append h l x).1[i]? = h[i]?) ∧
    (∀ i, i < h.length → itemAt (append h l x).1 i = itemAt h i ∧
       prevAt (append h l x).1 i = prevAt h i) ∧
    itemAt (append h l x).1 h.length = some x ∧
    itemsOf (append h l x).1 (ids ++ [h.length]) = itemsOf h ids ++ [x] := by
  have hsize := hwf.sizeEq
  have hnodup := hwf.nodup
  by_cases hsz : l.size = 0
  · have hids : ids = [] := by
      apply List.length_eq_zero.mp
      omega
    subst hids
    have happ : append h l x
        = (h ++ [⟨x, none, none⟩],
           ⟨some h.length, some h.length, l.size + 1⟩) := by
      unfold append
      rw [if_pos hsz]
    rw [happ]
    refine ⟨⟨by simp, by simp, by simp [hsz], by simp, ?_⟩, by simp, ?_, ?_, ?_, ?_⟩
    · intro j hj
      have hj0 : j = 0 := by simpa using hj
      subst hj0
      have hN : (h ++ [(⟨x, none, none⟩ : DListNode α)])[h.length]?
          = some ⟨x, none, none⟩ := List.getElem?_concat_length h _
      constructor
      · show nextAt (h ++ [⟨x, none, none⟩]) h.length = some none
        unfold nextAt
        rw [hN]
        rfl
      · show prevAt (h ++ [⟨x, none, none⟩]) h.length = some none
        unfold prevAt
        rw [hN]
        rfl
    · intro i hi _
      exact List.getElem?_append_left hi
    · intro i hi
      exact ⟨itemAt_append_left h _ hi, prevAt_append_left h _ hi⟩
    · unfold itemAt
      rw [List.getElem?_concat_length]
      rfl
    · show itemsOf (h ++ [⟨x, none, none⟩]) ([] ++ [h.length])
          = itemsOf h [] ++ [x]
      unfold itemsOf
      simp
      apply itemAtD_eq
      unfold itemAt
      rw [List.getElem?_concat_length]
      rfl
  · -- non-empty list: link after the old tail
    have hlen : 0 < ids.length := by
      rcases Nat.eq_zero_or_pos ids.length with h0 | h0
      · exfalso; omega
      · exact h0
    have hlast : ids.length - 1 < ids.length := by omega
    have htail2 : l.tail = some ids[ids.length - 1] := by
      rw [hwf.tailEq, List.getLast?_eq_getElem?, List.getElem?_eq_getElem hlast]
    have htlt : ids[ids.length - 1] < h.length := hwf.valid hlast
    have happ : append h l x
        = (setNext (h ++ [⟨x, none, some ids[ids.length - 1]⟩])
             ids[ids.length - 1] (some h.length),
           ⟨l.head, some h.length, l.size + 1⟩) := by
      unfold append
      rw [if_neg hsz, htail2]
    have hne : ids ≠ [] := by
      intro hc
      rw [hc] at hlen
      simp at hlen
    have hfresh : h.length ∉ ids := hwf.fresh_not_mem (Nat.le_refl _)
    -- lookups in the grown-and-relinked heap
    have hga : ∀ i, i < h.length → i ≠ ids[ids.length - 1] →
        (setNext (h ++ [⟨x, none, some ids[ids.length - 1]⟩])
          ids[ids.length - 1] (some h.length))[i]? = h[i]? := by
      intro i hi hit
      rw [getElem?_setNext_ne _ _ hit, List.getElem?_append_left hi]
    have hgN : (setNext (h ++ [⟨x, none, some ids[ids.length - 1]⟩])
        ids[ids.length - 1] (some h.length))[h.length]?
        = some ⟨x, none, some ids[ids.length - 1]⟩ := by
      rw [getElem?_setNext_ne _ _ (by omega), List.getElem?_concat_length]
    have htlt2 : ids[ids.length - 1]
        < (h ++ [(⟨x, none, some ids[ids.length - 1]⟩ : DListNode α)]).length := by
      simp
      omega
    have hitem : ∀ i, i < h.length →
        itemAt (setNext (h ++ [⟨x, none, some ids[ids.length - 1]⟩])
          ids[ids.length - 1] (some h.length)) i = itemAt h i := by
      intro i hi
      rw [itemAt_setNext, itemAt_append_left h _ hi]
    have hprev : ∀ i, i < h.length →
        prevAt (setNext (h ++ [⟨x, none, some ids[ids.length - 1]⟩])
          ids[ids.length - 1] (some h.length)) i = prevAt h i := by
      intro i hi
      rw [prevAt_setNext, prevAt_append_left h _ hi]
    have hnext : ∀ i, i < h.length → i ≠ ids[ids.length - 1] →
        nextAt (setNext (h ++ [⟨x, none, some ids[ids.length - 1]⟩])
          ids[ids.length - 1] (some h.length)) i = nextAt h i := by
      intro i hi hit
      unfold nextAt
      rw [hga i hi hit]
    have hnextT :
        nextAt (setNext (h ++ [⟨x, none, some ids[ids.length - 1]⟩])
          ids[ids.length - 1] (some h.length)) ids[ids.length - 1]
          = some (some h.length) :=
      nextAt_setNext_self _ _ htlt2
    rw [happ]
    refine ⟨⟨?_, ?_, ?_, nodup_concat hnodup hfresh, ?_⟩, ?_, ?_, ?_, ?_, ?_⟩
    · show l.head = (ids ++ [h.length]).head?
      rw [head?_append_of_ne_nil _ hne]
      exact hwf.headEq
    · show some h.length = (ids ++ [h.length]).getLast?
      rw [List.getLast?_concat]
    · show l.size + 1 = ((ids ++ [h.length]).length : Int)
      simp
      omega
    · -- the chain conditions
      intro j hj
      have hjlen : j < ids.length + 1 := by simpa using hj
      by_cases hjid : j < ids.length
      · -- an old node
        have hgj : (ids ++ [h.length])[j] = ids[j] := List.getElem_append_left hjid
        by_cases hjt : j = ids.length - 1
        · -- the old tail: its next now points at the new node
          subst hjt
          constructor
          · rw [hgj, hnextT]
            have : (ids ++ [h.length])[ids.length - 1 + 1]? = some h.length := by
              rw [List.getElem?_append_right (by omega)]
              have : ids.length - 1 + 1 - ids.length = 0 := by omega
              rw [this]
              rfl
            rw [this]
          · rw [hgj, hprev _ htlt, hwf.prevOf hlast]
            by_cases h0 : ids.length - 1 = 0
            · rw [if_pos h0, if_pos h0]
            · rw [if_neg h0, if_neg h0,
                List.getElem?_append_left (by omega)]
        · -- a strictly interior old node: untouched
          have hneq : ids[j] ≠ ids[ids.length - 1] := by
            intro hc
            exact hjt (hnodup.getElem_inj_iff.mp hc)
          have hvj : ids[j] < h.length := hwf.valid hjid
          constructor
          · rw [hgj, hnext _ hvj hneq, hwf.nextOf hjid,
              List.getElem?_append_left (by omega)]
          · rw [hgj, hprev _ hvj, hwf.prevOf hjid]
            by_cases h0 : j = 0
            · rw [if_pos h0, if_pos h0]
            · rw [if_neg h0, if_neg h0,
                List.getElem?_append_left (by omega)]
      · -- the new node
        have hj2 : j = ids.length := by omega
        subst hj2
        have hgj : (ids ++ [h.length])[ids.length] = h.length := by
          rw [List.getElem_append_right (by omega)]
          simp
        constructor
        · rw [hgj]
          show nextAt _ h.length = _
          unfold nextAt
          rw [hgN]
          have : (ids ++ [h.length])[ids.length + 1]? = none := by
            rw [List.getElem?_eq_none (by simp)]
          rw [this]
          rfl
        · rw [hgj]
          show prevAt _ h.length = _
          unfold prevAt
          rw [hgN]
          have h0 : ids.length ≠ 0 := by omega
          rw [if_neg h0, List.getElem?_append_left (by omega),
            List.getElem?_eq_getElem hlast]
          rfl
    · show (setNext (h ++ [⟨x, none, some ids[ids.length - 1]⟩])
        ids[ids.length - 1] (some h.length)).length = h.length + 1
      rw [length_setNext]
      simp
    · intro i hi hmem
      refine hga i hi ?_
      intro hc
      exact hmem (hc ▸ List.getElem_mem hlast)
    · intro i hi
      exact ⟨hitem i hi, hprev i hi⟩
    · unfold itemAt
      rw [hgN]
      simp
    · unfold itemsOf
      rw [List.map_append]
      congr 1
      · apply List.map_congr_left
        intro i hi
        exact itemAtD_congr (hitem i (hwf.mem_valid hi))
      · show [itemAtD _ h.length] = [x]
        have : itemAt (setNext (h ++ [⟨x, none, some ids[ids.length - 1]⟩])
            ids[ids.length - 1] (some h.length)) h.length = some x := by
          unfold itemAt
          rw [hgN]
          rfl
        rw [itemAtD_eq this]

/-! ## Facts about `clampPos` and `listInsertAt` -/

theorem clampPos_nonneg {size position : Int} (hs : 0 ≤ size) :
    0 ≤ clampPos size position := by
  simp only [clampPos]
  split_ifs <;> omega

theorem clampPos_le {size position : Int} (hs : 0 ≤ size) :
    clampPos size position ≤ size := by
  simp only [clampPos]
  split_ifs <;> omega

/-- Inserting at or beyond the end clamps to the end. -/
theorem clampPos_of_ge {size position : Int} (hs : 0 ≤ size)
    (hp : size ≤ position) : clampPos size position = size := by
  simp only [clampPos]
  split_ifs <;> omega

/-- Inserting more negatively than `-size` clamps to the front. -/
theorem clampPos_of_le_neg {size position : Int} (hs : 0 ≤ size)
    (hp : position < -size) : clampPos size position = 0 := by
  simp only [clampPos]
  split_ifs <;> omega

theorem length_listInsertAt {xs : List β} {p : Nat} (b : β)
    (hp : p ≤ xs.length) : (listInsertAt xs p b).length = xs.length + 1 := by
  unfold listInsertAt
  simp
  omega

theorem getElem?_listInsertAt {xs : List β} {p : Nat} (b : β)
    (hp : p ≤ xs.length) (j : Nat) :
    (listInsertAt xs p b)[j]? =
      if j < p then xs[j]?
      else if j = p then some b
      else xs[j - 1]? := by
  unfold listInsertAt
  have hlt : (xs.take p).length = p := List.length_take_of_le hp
  by_cases h1 : j < p
  · rw [if_pos h1, List.getElem?_append_left (by omega),
      List.getElem?_take_of_lt h1]
  · rw [if_neg h1, List.getElem?_append_right (by omega), hlt]
    by_cases h2 : j = p
    · subst h2
      rw [if_pos rfl]
      simp
    · rw [if_neg h2]
      obtain ⟨m, hm⟩ : ∃ m, j - p = m + 1 := ⟨j - p - 1, by omega⟩
      rw [hm, List.getElem?_cons_succ, List.getElem?_drop]
      congr 1
      omega

theorem listInsertAt_length_eq {xs : List β} (b : β) :
    listInsertAt xs xs.length b = xs ++ [b] := by
  unfold listInsertAt
  rw [List.take_length, List.drop_length]

theorem nodup_listInsertAt {xs : List Nat} {p n : Nat} (hx : xs.Nodup)
    (hn : n ∉ xs) : (listInsertAt xs p n).Nodup := by
  unfold listInsertAt
  rw [List.nodup_middle, List.take_append_drop, List.nodup_cons]
  exact ⟨hn, hx⟩

theorem map_listInsertAt (f : β → γ) (xs : List β) (p : Nat) (b : β) :
    (listInsertAt xs p b).map f = listInsertAt (xs.map f) p (f b) := by
  unfold listInsertAt
  rw [List.map_append, List.map_cons, List.map_take, List.map_drop]

theorem getElem_of_getElem? {xs : List β} {j : Nat} {v : β}
    (hj : j < xs.length) (hx : xs[j]? = some v) : xs[j] = v := by
  rw [List.getElem?_eq_getElem hj] at hx
  exact Option.some.inj hx

/-! ## Specification of `insert` -/

/-- The common core of the two splice configurations of `DList::insert`
(front splice with `previous == nullptr`, interior splice): given the heap
`hfin` produced by the link surgery — described by how each node's fields
read after it — the spine is the old spine with the new node inserted at
the clamped index, and the elements likewise. -/
theorem insert_splice_spec [Inhabited α] {h hfin : Heap α} {l : DList α}
    {ids : List Nat} {x : α} (hwf : WFIds h l ids) {cpn : Nat}
    (hcp : cpn < ids.length)
    (hF1 : ∀ i, i < h.length → i ≠ ids[cpn] →
      (cpn = 0 ∨ i ≠ ids[cpn - 1]) → hfin[i]? = h[i]?)
    (hFitem : ∀ i, i < h.length → itemAt hfin i = itemAt h i)
    (hFcn : nextAt hfin ids[cpn] = nextAt h ids[cpn])
    (hFcp : prevAt hfin ids[cpn] = some (some h.length))
    (hFq : cpn ≠ 0 → nextAt hfin ids[cpn - 1] = some (some h.length) ∧
      prevAt hfin ids[cpn - 1] = prevAt h ids[cpn - 1])
    (hFN : hfin[h.length]? =
      some ⟨x, some ids[cpn], if cpn = 0 then none else some ids[cpn - 1]⟩) :
    WFIds hfin
      ⟨if cpn = 0 then some h.length else l.head, l.tail, l.size + 1⟩
      (listInsertAt ids cpn h.length) ∧
    itemsOf hfin (listInsertAt ids cpn h.length)
      = listInsertAt (itemsOf h ids) cpn x := by
  have hsize := hwf.sizeEq
  have hnodup := hwf.nodup
  have hple : cpn ≤ ids.length := Nat.le_of_lt hcp
  have hlen' : (listInsertAt ids cpn h.length).length = ids.length + 1 :=
    length_listInsertAt _ hple
  have hgq := getElem?_listInsertAt (p := cpn) h.length hple
  have hfreshN : h.length ∉ ids := hwf.fresh_not_mem (Nat.le_refl _)
  constructor
  · refine ⟨?_, ?_, ?_, nodup_listInsertAt hnodup hfreshN, ?_⟩
    · show (if cpn = 0 then some h.length else l.head)
        = (listInsertAt ids cpn h.length).head?
      rw [List.head?_eq_getElem?, hgq 0]
      by_cases hc0 : cpn = 0
      · subst hc0
        simp
      · rw [if_pos (show 0 < cpn by omega), if_neg hc0, hwf.headEq,
          List.head?_eq_getElem?]
    · show l.tail = (listInsertAt ids cpn h.length).getLast?
      rw [List.getLast?_eq_getElem?, hlen', Nat.add_sub_cancel, hgq,
        if_neg (show ¬ (ids.length < cpn) by omega),
        if_neg (show ¬ (ids.length = cpn) by omega), hwf.tailEq,
        List.getLast?_eq_getElem?]
    · show l.size + 1 = _
      rw [hlen']
      push_cast
      omega
    · intro j hj
      have hjlen : j < ids.length + 1 := by omega
      rcases Nat.lt_trichotomy j cpn with hjc | hjc | hjc
      · -- a node left of the splice point
        have hjid : j < ids.length := by omega
        have hc0 : cpn ≠ 0 := by omega
        have hx : (listInsertAt ids cpn h.length)[j]? = some ids[j] := by
          rw [hgq, if_pos hjc, List.getElem?_eq_getElem hjid]
        have hv := getElem_of_getElem? hj hx
        constructor
        · rw [hv]
          by_cases hj1 : j = cpn - 1
          · -- the node right before the splice: next is now the new node
            subst hj1
            have ht : (listInsertAt ids cpn h.length)[cpn - 1 + 1]?
                = some h.length := by
              rw [hgq, if_neg (show ¬ (cpn - 1 + 1 < cpn) by omega),
                if_pos (show cpn - 1 + 1 = cpn by omega)]
            rw [ht, (hFq hc0).1]
          · have hne_c : ids[j] ≠ ids[cpn] := by
              intro hceq
              have := hnodup.getElem_inj_iff.mp hceq
              omega
            have hne_q : ids[j] ≠ ids[cpn - 1] := by
              intro hceq
              have := hnodup.getElem_inj_iff.mp hceq
              omega
            have hpres : hfin[ids[j]]? = h[ids[j]]? :=
              hF1 _ (hwf.valid hjid) hne_c (Or.inr hne_q)
            have ht : (listInsertAt ids cpn h.length)[j + 1]? = ids[j + 1]? := by
              rw [hgq, if_pos (show j + 1 < cpn by omega)]
            rw [ht, show nextAt hfin ids[j] = nextAt h ids[j] by
                unfold nextAt; rw [hpres]]
            exact hwf.nextOf hjid
        · rw [hv]
          have hprev_pres : prevAt hfin ids[j] = prevAt h ids[j] := by
            by_cases hj1 : j = cpn - 1
            · subst hj1
              exact (hFq hc0).2
            · have hne_c : ids[j] ≠ ids[cpn] := by
                intro hceq
                have := hnodup.getElem_inj_iff.mp hceq
                omega
              have hne_q : ids[j] ≠ ids[cpn - 1] := by
                intro hceq
                have := hnodup.getElem_inj_iff.mp hceq
                omega
              unfold prevAt
              rw [hF1 _ (hwf.valid hjid) hne_c (Or.inr hne_q)]
          rw [hprev_pres, hwf.prevOf hjid]
          by_cases hj0 : j = 0
          · rw [if_pos hj0, if_pos hj0]
          · have ht : (listInsertAt ids cpn h.length)[j - 1]? = ids[j - 1]? := by
              rw [hgq, if_pos (show j - 1 < cpn by omega)]
            rw [if_neg hj0, if_neg hj0, ht]
      · -- the freshly spliced node
        subst hjc
        have hx : (listInsertAt ids j h.length)[j]? = some h.length := by
          rw [hgq, if_neg (show ¬ (j < j) by omega), if_pos rfl]
        have hv := getElem_of_getElem? hj hx
        have hnx : nextAt hfin h.length = some (some ids[j]) := by
          unfold nextAt
          rw [hFN]
          rfl
        have hpv : prevAt hfin h.length
            = some (if j = 0 then none else some ids[j - 1]) := by
          unfold prevAt
          rw [hFN]
          rfl
        constructor
        · rw [hv, hnx]
          have ht : (listInsertAt ids j h.length)[j + 1]? = some ids[j] := by
            rw [hgq, if_neg (show ¬ (j + 1 < j) by omega),
              if_neg (show ¬ (j + 1 = j) by omega), Nat.add_sub_cancel,
              List.getElem?_eq_getElem hcp]
          rw [ht]
        · rw [hv, hpv]
          by_cases hc0 : j = 0
          · rw [if_pos hc0, if_pos hc0]
          · have ht : (listInsertAt ids j h.length)[j - 1]?
                = some ids[j - 1] := by
              rw [hgq, if_pos (show j - 1 < j by omega),
                List.getElem?_eq_getElem (show j - 1 < ids.length by omega)]
            rw [if_neg hc0, if_neg hc0, ht]
      · -- a node right of the splice point (spine indices shifted by one)
        have hjid : j - 1 < ids.length := by omega
        have hx : (listInsertAt ids cpn h.length)[j]? = some ids[j - 1] := by
          rw [hgq, if_neg (show ¬ (j < cpn) by omega),
            if_neg (show ¬ (j = cpn) by omega), List.getElem?_eq_getElem hjid]
        have hv := getElem_of_getElem? hj hx
        by_cases hj1 : j = cpn + 1
        · -- the found node itself
          subst hj1
          have hv2 : (listInsertAt ids cpn h.length)[cpn + 1] = ids[cpn] := hv
          constructor
          · rw [hv2, hFcn, hwf.nextOf hcp]
            have ht : (listInsertAt ids cpn h.length)[cpn + 1 + 1]?
                = ids[cpn + 1]? := by
              rw [hgq, if_neg (show ¬ (cpn + 1 + 1 < cpn) by omega),
                if_neg (show ¬ (cpn + 1 + 1 = cpn) by omega),
                show cpn + 1 + 1 - 1 = cpn + 1 by omega]
            rw [ht]
          · rw [hv2, hFcp, if_neg (show ¬ (cpn + 1 = 0) by omega)]
            have ht : (listInsertAt ids cpn h.length)[cpn + 1 - 1]?
                = some h.length := by
              rw [show cpn + 1 - 1 = cpn by omega, hgq,
                if_neg (show ¬ (cpn < cpn) by omega), if_pos rfl]
            rw [ht]
        · have hne_c : ids[j - 1] ≠ ids[cpn] := by
            intro hceq
            have := hnodup.getElem_inj_iff.mp hceq
            omega
          have hprec : cpn = 0 ∨ ids[j - 1] ≠ ids[cpn - 1] := by
            by_cases hc0 : cpn = 0
            · exact Or.inl hc0
            · refine Or.inr ?_
              intro hceq
              have := hnodup.getElem_inj_iff.mp hceq
              omega
          have hpres : hfin[ids[j - 1]]? = h[ids[j - 1]]? :=
            hF1 _ (hwf.valid hjid) hne_c hprec
          constructor
          · rw [hv, show nextAt hfin ids[j - 1] = nextAt h ids[j - 1] by
                unfold nextAt; rw [hpres], hwf.nextOf hjid]
            have ht : (listInsertAt ids cpn h.length)[j + 1]?
                = ids[j - 1 + 1]? := by
              rw [hgq, if_neg (show ¬ (j + 1 < cpn) by omega),
                if_neg (show ¬ (j + 1 = cpn) by omega),
                show j + 1 - 1 = j - 1 + 1 by omega]
            rw [ht]
          · rw [hv, show prevAt hfin ids[j - 1] = prevAt h ids[j - 1] by
                unfold prevAt; rw [hpres], hwf.prevOf hjid,
              if_neg (show ¬ (j - 1 = 0) by omega),
              if_neg (show ¬ (j = 0) by omega)]
            have ht : (listInsertAt ids cpn h.length)[j - 1]?
                = ids[j - 1 - 1]? := by
              rw [hgq, if_neg (show ¬ (j - 1 < cpn) by omega),
                if_neg (show ¬ (j - 1 = cpn) by omega)]
            rw [ht]
  · -- the element sequence
    unfold itemsOf
    rw [map_listInsertAt]
    have hN : itemAtD hfin h.length = x := by
      apply itemAtD_eq
      unfold itemAt
      rw [hFN]
      rfl
    rw [hN]
    congr 1
    apply List.map_congr_left
    intro i hi
    exact itemAtD_congr (hFitem i (hwf.mem_valid hi))

/-- What `insert` does to a well-formed list: the new node is allocated at
the end of the heap and spliced into the spine at the clamped position; the
element sequence gains `x` there; nodes of other lists are untouched, and
no element value of an existing node changes. -/
theorem insert_spec [Inhabited α] {h : Heap α} {l : DList α} {ids : List Nat}
    (hwf : WFIds h l ids) (position : Int) (x : α) :
    WFIds (insert h l position x).1 (insert h l position x).2
      (listInsertAt ids (clampPos l.size position).toNat h.length) ∧
    (insert h l position x).1.length = h.length + 1 ∧
    (∀ i, i < h.length → i ∉ ids → (insert h l position x).1[i]? = h[i]?) ∧
    (∀ i, i < h.length → itemAt (insert h l position x).1 i = itemAt h i) ∧
    itemsOf (insert h l position x).1
      (listInsertAt ids (clampPos l.size position).toNat h.length)
      = listInsertAt (itemsOf h ids) (clampPos l.size position).toNat x := by
  have hsize := hwf.sizeEq
  have hsz0 : (0 : Int) ≤ l.size := by omega
  have hcp0 : 0 ≤ clampPos l.size position := clampPos_nonneg hsz0
  have hcps : clampPos l.size position ≤ l.size := clampPos_le hsz0
  have hil : (itemsOf h ids).length = ids.length := length_itemsOf h ids
  by_cases hbr : l.size = 0 ∨ clampPos l.size position = l.size
  · -- clamped to the end: exactly an append
    have hins : insert h l position x = append h l x := by
      unfold insert
      rw [if_pos hbr]
    have hcpn : (clampPos l.size position).toNat = ids.length := by omega
    obtain ⟨hA1, hA2, hA3, hA4, hA5, hA6⟩ := append_spec hwf x
    rw [hins, hcpn]
    refine ⟨?_, hA2, hA3, fun i hi => (hA4 i hi).1, ?_⟩
    · rw [listInsertAt_length_eq]
      exact hA1
    · rw [listInsertAt_length_eq, ← hil, listInsertAt_length_eq]
      exact hA6
  · -- a genuine splice
    push_neg at hbr
    have hszpos : l.size ≠ 0 := hbr.1
    have hlt : clampPos l.size position < l.size :=
      lt_of_le_of_ne hcps hbr.2
    have hcpl : (clampPos l.size position).toNat < ids.length := by omega
    have hlenpos : 0 < ids.length := by omega
    have hfind : _find h l (clampPos l.size position)
        = some ids[(clampPos l.size position).toNat] := by
      rw [_find_nonneg hwf hcp0 hlt,
        List.getElem?_eq_getElem hcpl]
    have hprevc := hwf.prevOf hcpl
    have hbind : ((h[ids[(clampPos l.size position).toNat]]?).bind
        fun nd => nd.prev)
        = (if (clampPos l.size position).toNat = 0 then none
           else ids[(clampPos l.size position).toNat - 1]?) :=
      bind_prev_eq hprevc
    have hclt : ids[(clampPos l.size position).toNat] < h.length :=
      hwf.valid hcpl
    by_cases hc0 : (clampPos l.size position).toNat = 0
    · -- front splice: previous is null, head moves to the new node
      have hbind0 : ((h[ids[(clampPos l.size position).toNat]]?).bind
          fun nd => nd.prev) = none := by
        rw [hbind, if_pos hc0]
      have hins : insert h l position x
          = (setPrev (h ++ [⟨x, some ids[(clampPos l.size position).toNat],
                none⟩]) ids[(clampPos l.size position).toNat] (some h.length),
             ⟨some h.length, l.tail, l.size + 1⟩) := by
        simp only [insert, hfind, hbind0,
          if_neg (show ¬ (l.size = 0 ∨ clampPos l.size position = l.size) by
            push_neg; exact hbr)]
      rw [hins]
      have hF1 : ∀ i, i < h.length →
          i ≠ ids[(clampPos l.size position).toNat] →
          ((clampPos l.size position).toNat = 0 ∨
            i ≠ ids[(clampPos l.size position).toNat - 1]) →
          (setPrev (h ++ [⟨x, some ids[(clampPos l.size position).toNat],
              none⟩]) ids[(clampPos l.size position).toNat]
              (some h.length))[i]? = h[i]? := by
        intro i hi hic _
        rw [getElem?_setPrev_ne _ _ hic, List.getElem?_append_left hi]
      have hFitem : ∀ i, i < h.length →
          itemAt (setPrev (h ++ [⟨x, some ids[(clampPos l.size position).toNat],
              none⟩]) ids[(clampPos l.size position).toNat] (some h.length)) i
            = itemAt h i := by
        intro i hi
        rw [itemAt_setPrev, itemAt_append_left h _ hi]
      have hFcn : nextAt (setPrev (h ++ [⟨x,
            some ids[(clampPos l.size position).toNat], none⟩])
            ids[(clampPos l.size position).toNat] (some h.length))
            ids[(clampPos l.size position).toNat]
          = nextAt h ids[(clampPos l.size position).toNat] := by
        rw [nextAt_setPrev, nextAt_append_left h _ hclt]
      have hFcp : prevAt (setPrev (h ++ [⟨x,
            some ids[(clampPos l.size position).toNat], none⟩])
            ids[(clampPos l.size position).toNat] (some h.length))
            ids[(clampPos l.size position).toNat] = some (some h.length) := by
        apply prevAt_setPrev_self
        simp
        omega
      have hFN : (setPrev (h ++ [⟨x,
            some ids[(clampPos l.size position).toNat], none⟩])
            ids[(clampPos l.size position).toNat]
            (some h.length))[h.length]?
          = some ⟨x, some ids[(clampPos l.size position).toNat],
              if (clampPos l.size position).toNat = 0 then none
              else some ids[(clampPos l.size position).toNat - 1]⟩ := by
        rw [getElem?_setPrev_ne _ _ (by omega), List.getElem?_concat_length,
          if_pos hc0]
      obtain ⟨hW, hI⟩ := insert_splice_spec hwf hcpl hF1 hFitem hFcn hFcp
        (fun hq => absurd hc0 hq) hFN
      rw [if_pos hc0] at hW
      refine ⟨hW, ?_, ?_, hFitem, hI⟩
      · rw [length_setPrev]
        simp
      · intro i hi hmem
        exact hF1 i hi (fun hc => hmem (hc ▸ List.getElem_mem hcpl))
          (Or.inl hc0)
    · -- interior splice: previous is the node before the clamped position
      have hqlt : (clampPos l.size position).toNat - 1 < ids.length := by omega
      have hbind1 : ((h[ids[(clampPos l.size position).toNat]]?).bind
          fun nd => nd.prev)
          = some ids[(clampPos l.size position).toNat - 1] := by
        rw [hbind, if_neg hc0, List.getElem?_eq_getElem hqlt]
      have hqvlt : ids[(clampPos l.size position).toNat - 1] < h.length :=
        hwf.valid hqlt
      have hcq : ids[(clampPos l.size position).toNat]
          ≠ ids[(clampPos l.size position).toNat - 1] := by
        intro hceq
        have := hwf.nodup.getElem_inj_iff.mp hceq
        omega
      have hins : insert h l position x
          = (setPrev (setNext (h ++ [⟨x,
                some ids[(clampPos l.size position).toNat],
                some ids[(clampPos l.size position).toNat - 1]⟩])
                ids[(clampPos l.size position).toNat - 1] (some h.length))
              ids[(clampPos l.size position).toNat] (some h.length),
             ⟨l.head, l.tail, l.size + 1⟩) := by
        simp only [insert, hfind, hbind1,
          if_neg (show ¬ (l.size = 0 ∨ clampPos l.size position = l.size) by
            push_neg; exact hbr)]
      rw [hins]
      have hlen1 : ids[(clampPos l.size position).toNat]
          < (h ++ [(⟨x, some ids[(clampPos l.size position).toNat],
              some ids[(clampPos l.size position).toNat - 1]⟩ :
              DListNode α)]).length := by
        simp
        omega
      have hqlen1 : ids[(clampPos l.size position).toNat - 1]
          < (h ++ [(⟨x, some ids[(clampPos l.size position).toNat],
              some ids[(clampPos l.size position).toNat - 1]⟩ :
              DListNode α)]).length := by
        simp
        omega
      have hF1 : ∀ i, i < h.length →
          i ≠ ids[(clampPos l.size position).toNat] →
          ((clampPos l.size position).toNat = 0 ∨
            i ≠ ids[(clampPos l.size position).toNat - 1]) →
          (setPrev (setNext (h ++ [⟨x,
              some ids[(clampPos l.size position).toNat],
              some ids[(clampPos l.size position).toNat - 1]⟩])
              ids[(clampPos l.size position).toNat - 1] (some h.length))
              ids[(clampPos l.size position).toNat] (some h.length))[i]?
            = h[i]? := by
        intro i hi hic hiq
        rcases hiq with hiq | hiq
        · exact absurd hiq hc0
        · rw [getElem?_setPrev_ne _ _ hic, getElem?_setNext_ne _ _ hiq,
            List.getElem?_append_left hi]
      have hFitem : ∀ i, i < h.length →
          itemAt (setPrev (setNext (h ++ [⟨x,
              some ids[(clampPos l.size position).toNat],
              some ids[(clampPos l.size position).toNat - 1]⟩])
              ids[(clampPos l.size position).toNat - 1] (some h.length))
              ids[(clampPos l.size position).toNat] (some h.length)) i
            = itemAt h i := by
        intro i hi
        rw [itemAt_setPrev, itemAt_setNext, itemAt_append_left h _ hi]
      have hFcn : nextAt (setPrev (setNext (h ++ [⟨x,
            some ids[(clampPos l.size position).toNat],
            some ids[(clampPos l.size position).toNat - 1]⟩])
            ids[(clampPos l.size position).toNat - 1] (some h.length))
            ids[(clampPos l.size position).toNat] (some h.length))
            ids[(clampPos l.size position).toNat]
          = nextAt h ids[(clampPos l.size position).toNat] := by
        rw [nextAt_setPrev]
        unfold nextAt
        rw [getElem?_setNext_ne _ _ hcq, List.getElem?_append_left hclt]
      have hFcp : prevAt (setPrev (setNext (h ++ [⟨x,
            some ids[(clampPos l.size position).toNat],
            some ids[(clampPos l.size position).toNat - 1]⟩])
            ids[(clampPos l.size position).toNat - 1] (some h.length))
            ids[(clampPos l.size position).toNat] (some h.length))
            ids[(clampPos l.size position).toNat] = some (some h.length) := by
        apply prevAt_setPrev_self
        rw [length_setNext]
        simp
        omega
      have hFq : (clampPos l.size position).toNat ≠ 0 →
          nextAt (setPrev (setNext (h ++ [⟨x,
              some ids[(clampPos l.size position).toNat],
              some ids[(clampPos l.size position).toNat - 1]⟩])
              ids[(clampPos l.size position).toNat - 1] (some h.length))
              ids[(clampPos l.size position).toNat] (some h.length))
              ids[(clampPos l.size position).toNat - 1]
            = some (some h.length) ∧
          prevAt (setPrev (setNext (h ++ [⟨x,
              some ids[(clampPos l.size position).toNat],
              some ids[(clampPos l.size position).toNat - 1]⟩])
              ids[(clampPos l.size position).toNat - 1] (some h.length))
              ids[(clampPos l.size position).toNat] (some h.length))
              ids[(clampPos l.size position).toNat - 1]
            = prevAt h ids[(clampPos l.size position).toNat - 1] := by
        intro _
        constructor
        · rw [nextAt_setPrev]
          exact nextAt_setNext_self _ _ hqlen1
        · have hstep : prevAt (setPrev (setNext (h ++ [⟨x,
              some ids[(clampPos l.size position).toNat],
              some ids[(clampPos l.size position).toNat - 1]⟩])
              ids[(clampPos l.size position).toNat - 1] (some h.length))
              ids[(clampPos l.size position).toNat] (some h.length))
              ids[(clampPos l.size position).toNat - 1]
            = prevAt (setNext (h ++ [⟨x,
              some ids[(clampPos l.size position).toNat],
              some ids[(clampPos l.size position).toNat - 1]⟩])
              ids[(clampPos l.size position).toNat - 1] (some h.length))
              ids[(clampPos l.size position).toNat - 1] := by
            unfold prevAt
            rw [getElem?_setPrev_ne _ _ (Ne.symm hcq)]
          rw [hstep, prevAt_setNext, prevAt_append_left h _ hqvlt]
      have hFN : (setPrev (setNext (h ++ [⟨x,
            some ids[(clampPos l.size position).toNat],
            some ids[(clampPos l.size position).toNat - 1]⟩])
            ids[(clampPos l.size position).toNat - 1] (some h.length))
            ids[(clampPos l.size position).toNat]
            (some h.length))[h.length]?
          = some ⟨x, some ids[(clampPos l.size position).toNat],
              if (clampPos l.size position).toNat = 0 then none
              else some ids[(clampPos l.size position).toNat - 1]⟩ := by
        rw [getElem?_setPrev_ne _ _ (by omega),
          getElem?_setNext_ne _ _ (by omega), List.getElem?_concat_length,
          if_neg hc0]
      obtain ⟨hW, hI⟩ := insert_splice_spec hwf hcpl hF1 hFitem hFcn hFcp
        hFq hFN
      rw [if_neg hc0] at hW
      refine ⟨hW, ?_, ?_, hFitem, hI⟩
      · rw [length_setPrev, length_setNext]
        simp
      · intro i hi hmem
        exact hF1 i hi (fun hc => hmem (hc ▸ List.getElem_mem hcpl))
          (Or.inr fun hc => hmem (hc ▸ List.getElem_mem hqlt))

/-! ## Facts about `listEraseAt` -/

theorem length_listEraseAt {xs : List β} {p : Nat} (hp : p < xs.length) :
    (listEraseAt xs p).length = xs.length - 1 := by
  unfold listEraseAt
  simp
  omega

theorem getElem?_listEraseAt {xs : List β} {p : Nat} (hp : p < xs.length)
    (j : Nat) :
    (listEraseAt xs p)[j]? = if j < p then xs[j]? else xs[j + 1]? := by
  unfold listEraseAt
  have hlt : (xs.take p).length = p := List.length_take_of_le (by omega)
  by_cases h1 : j < p
  · rw [if_pos h1, List.getElem?_append_left (by omega),
      List.getElem?_take_of_lt h1]
  · rw [if_neg h1, List.getElem?_append_right (by omega), hlt,
      List.getElem?_drop]
    congr 1
    omega

theorem sublist_listEraseAt (xs : List β) (p : Nat) :
    (listEraseAt xs p).Sublist xs := by
  unfold listEraseAt
  calc (xs.take p ++ xs.drop (p + 1)).Sublist (xs.take p ++ xs.drop p) := by
        apply List.Sublist.append_left
        exact List.drop_sublist_drop_left xs (by omega)
    _ = xs := List.take_append_drop p xs

theorem nodup_listEraseAt {xs : List Nat} {p : Nat} (hx : xs.Nodup) :
    (listEraseAt xs p).Nodup :=
  (sublist_listEraseAt xs p).nodup hx

theorem map_listEraseAt (f : β → γ) (xs : List β) (p : Nat) :
    (listEraseAt xs p).map f = listEraseAt (xs.map f) p := by
  unfold listEraseAt
  rw [List.map_append, List.map_take, List.map_drop]

/-! ## Specification of the unlink surgery -/

/-- The common core of `DList::_delete` and the unlink inside
`DList::remove`: if the heap `hfin` after the surgery reads as described —
only the two neighbours of the removed node changed, the predecessor's
`_next` now skipping to the removed node's successor and the successor's
`_prev` skipping back to its predecessor — then the spine loses exactly
position `m` and the elements likewise. -/
theorem unlink_chain_spec [Inhabited α] {h f : Heap α} {l d : DList α}
    {ids : List Nat} (hwf : WFIds h l ids) {m : Nat} (hm : m < ids.length)
    {nd : DListNode α} (hnd : h[ids[m]]? = some nd)
    (hF1 : ∀ i, i < h.length → some i ≠ nd.prev → some i ≠ nd.next →
      f[i]? = h[i]?)
    (hFitem : ∀ i, i < h.length → itemAt f i = itemAt h i)
    (hFq : ∀ q, nd.prev = some q → nextAt f q = some nd.next ∧
      prevAt f q = prevAt h q)
    (hFr : ∀ r, nd.next = some r → prevAt f r = some nd.prev ∧
      nextAt f r = nextAt h r)
    (hhd : d.head = (if m = 0 then nd.next else l.head))
    (htl : d.tail = (if m + 1 = ids.length then nd.prev else l.tail))
    (hsz : d.size = l.size - 1) :
    WFIds f d (listEraseAt ids m) ∧
    itemsOf f (listEraseAt ids m) = listEraseAt (itemsOf h ids) m := by
  have hsize := hwf.sizeEq
  have hnodup := hwf.nodup
  have hndp : nd.prev = (if m = 0 then none else ids[m - 1]?) := by
    have := hwf.prevOf hm
    unfold prevAt at this
    rw [hnd] at this
    simpa using this
  have hndn : nd.next = ids[m + 1]? := by
    have := hwf.nextOf hm
    unfold nextAt at this
    rw [hnd] at this
    simpa using this
  have hlen2' : (listEraseAt ids m).length = ids.length - 1 :=
    length_listEraseAt hm
  have hgq := getElem?_listEraseAt (p := m) hm
  -- untouched nodes: everything except the two neighbours of position m
  have huntouched : ∀ j, (hj : j < ids.length) → j + 1 ≠ m → j ≠ m + 1 →
      f[ids[j]]? = h[ids[j]]? := by
    intro j hj hjq hjr
    refine hF1 _ (hwf.valid hj) ?_ ?_
    · rw [hndp]
      by_cases hm0 : m = 0
      · rw [if_pos hm0]
        simp
      · rw [if_neg hm0, List.getElem?_eq_getElem
          (show m - 1 < ids.length by omega)]
        intro hc
        have := hnodup.getElem_inj_iff.mp (Option.some.inj hc)
        omega
    · rw [hndn]
      by_cases hmL : m + 1 < ids.length
      · rw [List.getElem?_eq_getElem hmL]
        intro hc
        have := hnodup.getElem_inj_iff.mp (Option.some.inj hc)
        omega
      · rw [List.getElem?_eq_none (by omega)]
        simp
  constructor
  · refine ⟨?_, ?_, ?_, nodup_listEraseAt hnodup, ?_⟩
    · rw [hhd, List.head?_eq_getElem?, hgq 0]
      by_cases hm0 : m = 0
      · rw [if_neg (show ¬ (0 < m) by omega), if_pos hm0, hndn, hm0]
      · rw [if_pos (show 0 < m by omega), if_neg hm0, hwf.headEq,
          List.head?_eq_getElem?]
    · rw [htl, List.getLast?_eq_getElem?, hlen2', hgq]
      by_cases hmL : m + 1 = ids.length
      · rw [if_pos hmL]
        by_cases hm0 : m = 0
        · rw [hndp, if_pos hm0,
            if_neg (show ¬ (ids.length - 1 - 1 < m) by omega)]
          exact (List.getElem?_eq_none (by omega)).symm
        · rw [hndp, if_neg hm0,
            if_pos (show ids.length - 1 - 1 < m by omega)]
          congr 1
          omega
      · rw [if_neg hmL, if_neg (show ¬ (ids.length - 1 - 1 < m) by omega),
          hwf.tailEq, List.getLast?_eq_getElem?]
        congr 1
        omega
    · rw [hsz, hlen2']
      omega
    · intro j hj
      have hjlen : j < ids.length - 1 := by
        rw [hlen2'] at hj
        exact hj
      rcases Nat.lt_or_ge j m with hjm | hjm
      · -- a node strictly before the removed position
        have hjid : j < ids.length := by omega
        have hx : (listEraseAt ids m)[j]? = some ids[j] := by
          rw [hgq, if_pos hjm, List.getElem?_eq_getElem hjid]
        have hv := getElem_of_getElem? hj hx
        have hm0 : m ≠ 0 := by omega
        have hqm : m - 1 < ids.length := by omega
        have hprevq : nd.prev = some ids[m - 1] := by
          rw [hndp, if_neg hm0, List.getElem?_eq_getElem hqm]
        constructor
        · rw [hv]
          by_cases hj1 : j = m - 1
          · -- the predecessor: its next now skips to the successor
            subst hj1
            rw [(hFq _ hprevq).1, hndn]
            have ht : (listEraseAt ids m)[m - 1 + 1]? = ids[m + 1]? := by
              rw [hgq, if_neg (show ¬ (m - 1 + 1 < m) by omega),
                show m - 1 + 1 + 1 = m + 1 by omega]
            rw [ht]
          · have hpres := huntouched j hjid (by omega) (by omega)
            rw [show nextAt f ids[j] = nextAt h ids[j] by
                unfold nextAt; rw [hpres], hwf.nextOf hjid]
            have ht : (listEraseAt ids m)[j + 1]? = ids[j + 1]? := by
              rw [hgq, if_pos (show j + 1 < m by omega)]
            rw [ht]
        · rw [hv]
          have hprev_pres : prevAt f ids[j] = prevAt h ids[j] := by
            by_cases hj1 : j = m - 1
            · subst hj1
              exact (hFq _ hprevq).2
            · have hpres := huntouched j hjid (by omega) (by omega)
              unfold prevAt
              rw [hpres]
          rw [hprev_pres, hwf.prevOf hjid]
          by_cases hj0 : j = 0
          · rw [if_pos hj0, if_pos hj0]
          · have ht : (listEraseAt ids m)[j - 1]? = ids[j - 1]? := by
              rw [hgq, if_pos (show j - 1 < m by omega)]
            rw [if_neg hj0, if_neg hj0, ht]
      · -- a node at or after the removed position: spine index shifts up
        have hjid : j + 1 < ids.length := by omega
        have hx : (listEraseAt ids m)[j]? = some ids[j + 1] := by
          rw [hgq, if_neg (show ¬ (j < m) by omega),
            List.getElem?_eq_getElem hjid]
        have hv := getElem_of_getElem? hj hx
        by_cases hj1 : j = m
        · -- the successor: its prev now skips back to the predecessor
          subst hj1
          have hnextr : nd.next = some ids[j + 1] := by
            rw [hndn, List.getElem?_eq_getElem hjid]
          constructor
          · rw [hv, (hFr _ hnextr).2, hwf.nextOf hjid]
            have ht : (listEraseAt ids j)[j + 1]? = ids[j + 1 + 1]? := by
              rw [hgq, if_neg (show ¬ (j + 1 < j) by omega)]
            rw [ht]
          · rw [hv, (hFr _ hnextr).1, hndp]
            by_cases hm0 : j = 0
            · rw [if_pos hm0, if_pos hm0]
            · rw [if_neg hm0, if_neg hm0]
              have ht : (listEraseAt ids j)[j - 1]? = ids[j - 1]? := by
                rw [hgq, if_pos (show j - 1 < j by omega)]
              rw [ht]
        · -- strictly after: untouched node, spine index shifted by one
          have hpres := huntouched (j + 1) hjid (by omega) (by omega)
          constructor
          · rw [hv, show nextAt f ids[j + 1] = nextAt h ids[j + 1] by
                unfold nextAt; rw [hpres], hwf.nextOf hjid]
            have ht : (listEraseAt ids m)[j + 1]? = ids[j + 1 + 1]? := by
              rw [hgq, if_neg (show ¬ (j + 1 < m) by omega)]
            rw [ht]
          · rw [hv, show prevAt f ids[j + 1] = prevAt h ids[j + 1] by
                unfold prevAt; rw [hpres], hwf.prevOf hjid,
              if_neg (show ¬ (j + 1 = 0) by omega),
              if_neg (show ¬ (j = 0) by omega), Nat.add_sub_cancel]
            have ht : (listEraseAt ids m)[j - 1]? = ids[j]? := by
              rw [hgq, if_neg (show ¬ (j - 1 < m) by omega),
                show j - 1 + 1 = j by omega]
            rw [ht]
  · -- the element sequence
    unfold itemsOf
    rw [map_listEraseAt]
    congr 1
    apply List.map_congr_left
    intro i hi
    exact itemAtD_congr (hFitem i (hwf.mem_valid hi))

/-- What `unlinkNode` does on a well-formed list, for the node at spine
position `m`: the spine and the element sequence lose exactly position `m`;
the heap keeps its length, nodes of other lists are untouched, and no
element value changes. -/
theorem unlink_spec [Inhabited α] {h : Heap α} {l : DList α} {ids : List Nat}
    (hwf : WFIds h l ids) {m : Nat} (hm : m < ids.length) {nd : DListNode α}
    (hnd : h[ids[m]]? = some nd) :
    WFIds (unlinkNode h l nd).1 (unlinkNode h l nd).2 (listEraseAt ids m) ∧
    (unlinkNode h l nd).1.length = h.length ∧
    (∀ i, i < h.length → i ∉ ids → (unlinkNode h l nd).1[i]? = h[i]?) ∧
    (∀ i, i < h.length → itemAt (unlinkNode h l nd).1 i = itemAt h i) ∧
    itemsOf (unlinkNode h l nd).1 (listEraseAt ids m)
      = listEraseAt (itemsOf h ids) m ∧
    nd.item = itemAtD h ids[m] := by
  have hnodup := hwf.nodup
  have hndp : nd.prev = (if m = 0 then none else ids[m - 1]?) := by
    have := hwf.prevOf hm
    unfold prevAt at this
    rw [hnd] at this
    simpa using this
  have hndn : nd.next = ids[m + 1]? := by
    have := hwf.nextOf hm
    unfold nextAt at this
    rw [hnd] at this
    simpa using this
  have hitem : nd.item = itemAtD h ids[m] := by
    have hx : itemAt h ids[m] = some nd.item := by
      unfold itemAt
      rw [hnd]
      rfl
    exact (itemAtD_eq hx).symm
  cases hp : nd.prev with
  | none =>
    have hm0 : m = 0 := by
      by_contra hm0
      rw [hndp, if_neg hm0, List.getElem?_eq_getElem
        (show m - 1 < ids.length by omega)] at hp
      cases hp
    cases hnx : nd.next with
    | none =>
      have hmL : m + 1 = ids.length := by
        by_contra hmL
        rw [hndn, List.getElem?_eq_getElem
          (show m + 1 < ids.length by omega)] at hnx
        cases hnx
      have hun : unlinkNode h l nd = (h, ⟨none, none, l.size - 1⟩) := by
        simp only [unlinkNode, hp, hnx]
      rw [hun]
      obtain ⟨hW, hI⟩ := unlink_chain_spec
        (f := h) (d := ⟨none, none, l.size - 1⟩) hwf hm hnd
        (fun i _ _ _ => rfl)
        (fun i _ => rfl)
        (fun q hq => by rw [hp] at hq; cases hq)
        (fun r hr => by rw [hnx] at hr; cases hr)
        (by show (none : Option Nat) = _; rw [if_pos hm0, hnx])
        (by show (none : Option Nat) = _; rw [if_pos hmL, hp])
        rfl
      exact ⟨hW, rfl, fun i _ _ => rfl, fun i _ => rfl, hI, hitem⟩
    | some nx =>
      have hsome : ids[m + 1]? = some nx := by rw [← hndn, hnx]
      obtain ⟨hmlt, hnxv⟩ := List.getElem?_eq_some_iff.mp hsome
      have hnxlt : nx < h.length := hnxv ▸ hwf.valid hmlt
      have hnxmem : nx ∈ ids := hnxv ▸ List.getElem_mem hmlt
      have hun : unlinkNode h l nd
          = (setPrev h nx none, ⟨some nx, l.tail, l.size - 1⟩) := by
        simp only [unlinkNode, hp, hnx]
      rw [hun]
      have hF1 : ∀ i, i < h.length → some i ≠ nd.prev → some i ≠ nd.next →
          (setPrev h nx none)[i]? = h[i]? := by
        intro i _ _ hin
        rw [hnx] at hin
        refine getElem?_setPrev_ne _ _ ?_
        intro hc
        exact hin (by rw [hc])
      have hFitem : ∀ i, i < h.length →
          itemAt (setPrev h nx none) i = itemAt h i :=
        fun i _ => itemAt_setPrev h nx none i
      obtain ⟨hW, hI⟩ := unlink_chain_spec
        (d := ⟨some nx, l.tail, l.size - 1⟩) hwf hm hnd
        hF1 hFitem
        (fun q hq => by rw [hp] at hq; cases hq)
        (fun r hr => by
          rw [hnx] at hr
          obtain rfl := Option.some.inj hr
          refine ⟨?_, nextAt_setPrev h nx none nx⟩
          rw [prevAt_setPrev_self h none hnxlt, hp])
        (by show some nx = _; rw [if_pos hm0, hnx])
        (by show l.tail = _; rw [if_neg (by omega)])
        rfl
      refine ⟨hW, length_setPrev h nx none, ?_, hFitem, hI, hitem⟩
      intro i hi hmem
      refine getElem?_setPrev_ne _ _ ?_
      intro hc
      exact hmem (hc ▸ hnxmem)
  | some pp =>
    have hm0 : m ≠ 0 := by
      intro hm0
      rw [hndp, if_pos hm0] at hp
      cases hp
    have hsomep : ids[m - 1]? = some pp := by
      rw [← hp, hndp, if_neg hm0]
    obtain ⟨hplt, hppv⟩ := List.getElem?_eq_some_iff.mp hsomep
    have hpplt : pp < h.length := hppv ▸ hwf.valid hplt
    have hppmem : pp ∈ ids := hppv ▸ List.getElem_mem hplt
    cases hnx : nd.next with
    | none =>
      have hmL : m + 1 = ids.length := by
        by_contra hmL
        rw [hndn, List.getElem?_eq_getElem
          (show m + 1 < ids.length by omega)] at hnx
        cases hnx
      have hun : unlinkNode h l nd
          = (setNext h pp none, ⟨l.head, some pp, l.size - 1⟩) := by
        simp only [unlinkNode, hp, hnx]
      rw [hun]
      have hF1 : ∀ i, i < h.length → some i ≠ nd.prev → some i ≠ nd.next →
          (setNext h pp none)[i]? = h[i]? := by
        intro i _ hip _
        rw [hp] at hip
        refine getElem?_setNext_ne _ _ ?_
        intro hc
        exact hip (by rw [hc])
      have hFitem : ∀ i, i < h.length →
          itemAt (setNext h pp none) i = itemAt h i :=
        fun i _ => itemAt_setNext h pp none i
      obtain ⟨hW, hI⟩ := unlink_chain_spec
        (d := ⟨l.head, some pp, l.size - 1⟩) hwf hm hnd
        hF1 hFitem
        (fun q hq => by
          rw [hp] at hq
          obtain rfl := Option.some.inj hq
          refine ⟨?_, prevAt_setNext h pp none pp⟩
          rw [nextAt_setNext_self h none hpplt, hnx])
        (fun r hr => by rw [hnx] at hr; cases hr)
        (by show l.head = _; rw [if_neg hm0])
        (by show some pp = _; rw [if_pos hmL, hp])
        rfl
      refine ⟨hW, length_setNext h pp none, ?_, hFitem, hI, hitem⟩
      intro i hi hmem
      refine getElem?_setNext_ne _ _ ?_
      intro hc
      exact hmem (hc ▸ hppmem)
    | some nx =>
      have hsome : ids[m + 1]? = some nx := by rw [← hndn, hnx]
      obtain ⟨hmlt, hnxv⟩ := List.getElem?_eq_some_iff.mp hsome
      have hnxlt : nx < h.length := hnxv ▸ hwf.valid hmlt
      have hnxmem : nx ∈ ids := hnxv ▸ List.getElem_mem hmlt
      have hppnx : pp ≠ nx := by
        rw [← hppv, ← hnxv]
        intro hceq
        have := hnodup.getElem_inj_iff.mp hceq
        omega
      have hun : unlinkNode h l nd
          = (setPrev (setNext h pp (some nx)) nx (some pp),
             ⟨l.head, l.tail, l.size - 1⟩) := by
        simp only [unlinkNode, hp, hnx]
      rw [hun]
      have hF1 : ∀ i, i < h.length → some i ≠ nd.prev → some i ≠ nd.next →
          (setPrev (setNext h pp (some nx)) nx (some pp))[i]? = h[i]? := by
        intro i _ hip hin
        rw [hp] at hip
        rw [hnx] at hin
        rw [getElem?_setPrev_ne _ _ (fun hc => hin (by rw [hc])),
          getElem?_setNext_ne _ _ (fun hc => hip (by rw [hc]))]
      have hFitem : ∀ i, i < h.length →
          itemAt (setPrev (setNext h pp (some nx)) nx (some pp)) i
            = itemAt h i := by
        intro i _
        rw [itemAt_setPrev, itemAt_setNext]
      obtain ⟨hW, hI⟩ := unlink_chain_spec
        (d := ⟨l.head, l.tail, l.size - 1⟩) hwf hm hnd
        hF1 hFitem
        (fun q hq => by
          rw [hp] at hq
          obtain rfl := Option.some.inj hq
          constructor
          · have hstep :
                nextAt (setPrev (setNext h pp (some nx)) nx (some pp)) pp
                = nextAt (setNext h pp (some nx)) pp := by
              unfold nextAt
              rw [getElem?_setPrev_ne _ _ hppnx]
            rw [hstep, nextAt_setNext_self h (some nx) hpplt, hnx]
          · have hstep :
                prevAt (setPrev (setNext h pp (some nx)) nx (some pp)) pp
                = prevAt (setNext h pp (some nx)) pp := by
              unfold prevAt
              rw [getElem?_setPrev_ne _ _ hppnx]
            rw [hstep, prevAt_setNext])
        (fun r hr => by
          rw [hnx] at hr
          obtain rfl := Option.some.inj hr
          constructor
          · have hlen1 : nx < (setNext h pp (some nx)).length := by
              rw [length_setNext]
              exact hnxlt
            rw [prevAt_setPrev_self _ (some pp) hlen1, hp]
          · rw [nextAt_setPrev]
            unfold nextAt
            rw [getElem?_setNext_ne _ _ (Ne.symm hppnx)])
        (by show l.head = _; rw [if_neg hm0])
        (by show l.tail = _; rw [if_neg (by omega)])
        rfl
      refine ⟨hW, ?_, ?_, hFitem, hI, hitem⟩
      · rw [length_setPrev, length_setNext]
      · intro i hi hmem
        rw [getElem?_setPrev_ne _ _
            (fun hc => hmem (by rw [hc]; exact hnxmem)),
          getElem?_setNext_ne _ _
            (fun hc => hmem (by rw [hc]; exact hppmem))]

/-! ## Specification of `_delete` (and hence `pop`) -/

/-- The out-of-range branch of `_delete`: a default element is returned and
neither the heap nor the handle changes in any way.  Needs no
well-formedness — it is the literal guard of the source. -/
theorem _delete_out [Inhabited α] (h : Heap α) (l : DList α) (position : Int)
    (hp : (if position < 0 then position + l.size else position) < 0 ∨
      (if position < 0 then position + l.size else position) ≥ l.size) :
    _delete h l position = (default, h, l) := by
  simp only [_delete]
  rw [if_pos hp]

/-- The in-range branch of `_delete`, for a normalized position `m`: the
element at spine position `m` is returned and that node is unlinked. -/
theorem _delete_spec [Inhabited α] {h : Heap α} {l : DList α}
    {ids : List Nat} (hwf : WFIds h l ids) {position : Int} {m : Nat}
    (hm : (if position < 0 then position + l.size else position) = (m : Int))
    (hms : m < ids.length) :
    (_delete h l position).1 = itemAtD h ids[m] ∧
    WFIds (_delete h l position).2.1 (_delete h l position).2.2
      (listEraseAt ids m) ∧
    (_delete h l position).2.1.length = h.length ∧
    (∀ i, i < h.length → i ∉ ids →
      (_delete h l position).2.1[i]? = h[i]?) ∧
    (∀ i, i < h.length →
      itemAt (_delete h l position).2.1 i = itemAt h i) ∧
    itemsOf (_delete h l position).2.1 (listEraseAt ids m)
      = listEraseAt (itemsOf h ids) m := by
  have hsize := hwf.sizeEq
  have hguard : ¬ ((if position < 0 then position + l.size else position) < 0
      ∨ (if position < 0 then position + l.size else position) ≥ l.size) := by
    rw [hm]
    push_neg
    constructor <;> omega
  have hfind : _find h l (if position < 0 then position + l.size
      else position) = some ids[m] := by
    rw [hm, _find_nonneg hwf (by omega) (by omega)]
    rw [show ((m : Int)).toNat = m from rfl, List.getElem?_eq_getElem hms]
  have hvl := hwf.valid hms
  have hnd : h[ids[m]]? = some h[ids[m]] := List.getElem?_eq_getElem hvl
  have hdel : _delete h l position
      = (h[ids[m]].item, unlinkNode h l h[ids[m]]) := by
    simp only [_delete, hfind, hnd, if_neg hguard]
  obtain ⟨hW, hlen, hfr, hit, hI, hval⟩ := unlink_spec hwf hms hnd
  rw [hdel]
  exact ⟨hval, hW, hlen, hfr, hit, hI⟩

/-! ## Facts about `firstIdxOf` -/

theorem firstIdxOf_eq_none_iff [DecidableEq α] (x : α) (xs : List α) :
    firstIdxOf x xs = none ↔ x ∉ xs := by
  induction xs with
  | nil => simp [firstIdxOf]
  | cons a as ih =>
    by_cases ha : a = x
    · simp [firstIdxOf, ha]
    · simp [firstIdxOf, ha, ih, Ne.symm ha]

theorem firstIdxOf_some [DecidableEq α] (x : α) (xs : List α) (m : Nat)
    (hm : firstIdxOf x xs = some m) :
    xs[m]? = some x ∧ ∀ k, k < m → xs[k]? ≠ some x := by
  induction xs generalizing m with
  | nil => cases hm
  | cons a as ih =>
    by_cases ha : a = x
    · rw [firstIdxOf, if_pos ha] at hm
      obtain rfl := Option.some.inj hm
      subst ha
      exact ⟨by simp, fun k hk => absurd hk (by omega)⟩
    · rw [firstIdxOf, if_neg ha] at hm
      cases hrec : firstIdxOf x as with
      | none => rw [hrec] at hm; cases hm
      | some d =>
        rw [hrec] at hm
        obtain rfl : d + 1 = m := Option.some.inj hm
        obtain ⟨h1, h2⟩ := ih d hrec
        refine ⟨by rw [List.getElem?_cons_succ]; exact h1, ?_⟩
        intro k hk
        cases k with
        | zero => simpa using ha
        | succ k2 =>
          rw [List.getElem?_cons_succ]
          exact h2 k2 (by omega)

/-- The size of a well-formed list never exceeds the heap: the spine has no
duplicates and every spine entry is an allocated node. -/
theorem WFIds.length_le {h : Heap α} {l : DList α} {ids : List Nat}
    (hwf : WFIds h l ids) : ids.length ≤ h.length := by
  have hsub : ids ⊆ List.range h.length :=
    fun i hi => List.mem_range.mpr (hwf.mem_valid hi)
  have := (List.subperm_of_subset hwf.nodup hsub).length_le
  simpa using this

/-! ## Specification of `remove` -/

/-- The scan loop of `remove`, started at spine position `j` with enough
fuel: if no element at or after `j` equals `x` the state is untouched;
otherwise the first such node — at offset `d` of the remaining elements —
is unlinked. -/
theorem removeLoop_spec [Inhabited α] [DecidableEq α] {h : Heap α}
    {l : DList α} {ids : List Nat} (hwf : WFIds h l ids) (x : α) :
    ∀ fuel j, ids.length ≤ j + fuel →
      (firstIdxOf x ((itemsOf h ids).drop j) = none →
        removeLoop h l x ids[j]? fuel = (h, l)) ∧
      (∀ d, firstIdxOf x ((itemsOf h ids).drop j) = some d →
        WFIds (removeLoop h l x ids[j]? fuel).1
          (removeLoop h l x ids[j]? fuel).2 (listEraseAt ids (j + d)) ∧
        itemsOf (removeLoop h l x ids[j]? fuel).1 (listEraseAt ids (j + d))
          = listEraseAt (itemsOf h ids) (j + d) ∧
        (removeLoop h l x ids[j]? fuel).1.length = h.length ∧
        (∀ i, i < h.length → i ∉ ids →
          (removeLoop h l x ids[j]? fuel).1[i]? = h[i]?) ∧
        (∀ i, i < h.length →
          itemAt (removeLoop h l x ids[j]? fuel).1 i = itemAt h i)) := by
  have hlitems : (itemsOf h ids).length = ids.length := length_itemsOf h ids
  intro fuel
  induction fuel with
  | zero =>
    intro j hj
    have hdrop : (itemsOf h ids).drop j = [] :=
      List.drop_eq_nil_of_le (by omega)
    rw [hdrop]
    exact ⟨fun _ => by cases hn : ids[j]? <;> rfl,
      fun d hd => by cases hd⟩
  | succ fuel ih =>
    intro j hj
    by_cases hjl : j < ids.length
    · -- the loop inspects the node at spine position j
      have hvl := hwf.valid hjl
      have hnd : h[ids[j]]? = some h[ids[j]] := List.getElem?_eq_getElem hvl
      have hnext : h[ids[j]].next = ids[j + 1]? := by
        have := hwf.nextOf hjl
        unfold nextAt at this
        rw [hnd] at this
        simpa using this
      have hitemj : itemAtD h ids[j] = h[ids[j]].item := by
        apply itemAtD_eq
        unfold itemAt
        rw [hnd]
        rfl
      have hjit : j < (itemsOf h ids).length := by omega
      have hdrop : (itemsOf h ids).drop j
          = h[ids[j]].item :: (itemsOf h ids).drop (j + 1) := by
        rw [List.drop_eq_getElem_cons hjit]
        congr 1
        rw [getElem_itemsOf h ids hjl, hitemj]
      have hstep : removeLoop h l x ids[j]? (fuel + 1)
          = if h[ids[j]].item = x then unlinkNode h l h[ids[j]]
            else removeLoop h l x ids[j + 1]? fuel := by
        rw [List.getElem?_eq_getElem hjl]
        simp only [removeLoop, hnd, hnext]
      by_cases hit : h[ids[j]].item = x
      · -- found here: offset 0
        rw [hstep, if_pos hit]
        have hfirst : firstIdxOf x ((itemsOf h ids).drop j) = some 0 := by
          rw [hdrop, firstIdxOf, if_pos hit]
        constructor
        · intro hnone
          rw [hfirst] at hnone
          cases hnone
        · intro d hd
          rw [hfirst] at hd
          obtain rfl := Option.some.inj hd
          obtain ⟨hW, hlen, hfr, hitp, hI, _⟩ := unlink_spec hwf hjl hnd
          exact ⟨hW, hI, hlen, hfr, hitp⟩
      · -- not here: recurse on the rest of the chain
        rw [hstep, if_neg hit]
        have hfirst : firstIdxOf x ((itemsOf h ids).drop j)
            = (firstIdxOf x ((itemsOf h ids).drop (j + 1))).map (· + 1) := by
          rw [hdrop, firstIdxOf, if_neg hit]
        obtain ⟨ihn, ihs⟩ := ih (j + 1) (by omega)
        constructor
        · intro hnone
          rw [hfirst] at hnone
          exact ihn (by simpa using hnone)
        · intro d hd
          rw [hfirst] at hd
          cases hrec : firstIdxOf x ((itemsOf h ids).drop (j + 1)) with
          | none => rw [hrec] at hd; cases hd
          | some d2 =>
            rw [hrec] at hd
            obtain rfl : d2 + 1 = d := Option.some.inj hd
            have := ihs d2 hrec
            rw [show j + (d2 + 1) = j + 1 + d2 by omega]
            exact this
    · -- past the end of the chain
      have hnone : ids[j]? = none := List.getElem?_eq_none (by omega)
      have hdrop : (itemsOf h ids).drop j = [] :=
        List.drop_eq_nil_of_le (by omega)
      rw [hnone, hdrop]
      exact ⟨fun _ => rfl, fun d hd => by cases hd⟩

/-- What `remove` does to a well-formed list: if no element equals `x` the
state is untouched, otherwise exactly the first node whose element equals
`x` is unlinked; other lists and all element values are untouched. -/
theorem remove_spec [Inhabited α] [DecidableEq α] {h : Heap α}
    {l : DList α} {ids : List Nat} (hwf : WFIds h l ids) (x : α) :
    (firstIdxOf x (itemsOf h ids) = none → remove h l x = (h, l)) ∧
    (∀ m, firstIdxOf x (itemsOf h ids) = some m →
      WFIds (remove h l x).1 (remove h l x).2 (listEraseAt ids m) ∧
      itemsOf (remove h l x).1 (listEraseAt ids m)
        = listEraseAt (itemsOf h ids) m ∧
      (remove h l x).1.length = h.length ∧
      (∀ i, i < h.length → i ∉ ids → (remove h l x).1[i]? = h[i]?) ∧
      (∀ i, i < h.length → itemAt (remove h l x).1 i = itemAt h i)) := by
  have hrm : remove h l x = removeLoop h l x ids[0]? (h.length + 1) := by
    unfold remove
    rw [hwf.headEq, List.head?_eq_getElem?]
  have hfuel : ids.length ≤ 0 + (h.length + 1) := by
    have := hwf.length_le
    omega
  obtain ⟨hn, hs⟩ := removeLoop_spec hwf x (h.length + 1) 0 hfuel
  rw [List.drop_zero] at hn hs
  constructor
  · intro hnone
    rw [hrm]
    exact hn hnone
  · intro m hm
    rw [hrm]
    have := hs m hm
    rw [Nat.zero_add] at this
    exact this

/-! ## Specification of `extend` (non-aliased case) -/

/-- The `while` loop of `extend` on a distinct source list: appends, in
order, the elements of `other`'s chain from position `j` on, while the
source chain — disjoint from the destination — is never modified. -/
theorem extendOtherLoop_zero (h : Heap α) (l : DList α) (node : Option Nat) :
    extendOtherLoop h l node 0 = (h, l) := by
  cases node <;> rfl

theorem extendSelfLoop_zero (h : Heap α) (l : DList α) (node : Option Nat) :
    extendSelfLoop h l node 0 = (h, l) := by
  cases node <;> rfl

theorem extendOtherLoop_none (h : Heap α) (l : DList α) (fuel : Nat) :
    extendOtherLoop h l none fuel = (h, l) := by
  cases fuel <;> rfl

theorem extendOtherLoop_spec [Inhabited α] {hO : Heap α} {other : DList α}
    {idsO : List Nat} (hwfO : WFIds hO other idsO) :
    ∀ fuel j (h : Heap α) (l : DList α) (ids : List Nat),
      idsO.length ≤ j + fuel →
      hO.length ≤ h.length →
      WFIds h l ids →
      (∀ i, i ∈ idsO → h[i]? = hO[i]?) →
      (∀ i, i ∈ idsO → i ∉ ids) →
      ∃ ids2,
        WFIds (extendOtherLoop h l idsO[j]? fuel).1
          (extendOtherLoop h l idsO[j]? fuel).2 ids2 ∧
        itemsOf (extendOtherLoop h l idsO[j]? fuel).1 ids2
          = itemsOf h ids ++ (itemsOf hO idsO).drop j ∧
        hO.length ≤ (extendOtherLoop h l idsO[j]? fuel).1.length ∧
        (∀ i, i ∈ idsO → (extendOtherLoop h l idsO[j]? fuel).1[i]? = hO[i]?) := by
  have hlO : (itemsOf hO idsO).length = idsO.length := length_itemsOf hO idsO
  intro fuel
  induction fuel with
  | zero =>
    intro j h l ids hjf hlen hwf hag hdisj
    have hdrop : (itemsOf hO idsO).drop j = [] :=
      List.drop_eq_nil_of_le (by omega)
    rw [extendOtherLoop_zero]
    exact ⟨ids, hwf, by rw [hdrop, List.append_nil], hlen, hag⟩
  | succ fuel ih =>
    intro j h l ids hjf hlen hwf hag hdisj
    by_cases hjl : j < idsO.length
    · -- copy the element at source position j, then continue
      have hmem : idsO[j] ∈ idsO := List.getElem_mem hjl
      have hagj : h[idsO[j]]? = hO[idsO[j]]? := hag _ hmem
      have hvlO : idsO[j] < hO.length := hwfO.valid hjl
      have hndO : hO[idsO[j]]? = some hO[idsO[j]] :=
        List.getElem?_eq_getElem hvlO
      have hnd : h[idsO[j]]? = some hO[idsO[j]] := by rw [hagj, hndO]
      obtain ⟨hW2, hlen2, hfr2, hpres2, hN2, hI2⟩ :=
        append_spec hwf hO[idsO[j]].item
      have hnextO : hO[idsO[j]].next = idsO[j + 1]? := by
        have := hwfO.nextOf hjl
        unfold nextAt at this
        rw [hndO] at this
        simpa using this
      have hread : (((append h l hO[idsO[j]].item).1)[idsO[j]]?).bind
          (fun nd => nd.next) = idsO[j + 1]? := by
        rw [hfr2 _ (by omega) (hdisj _ hmem), hnd]
        simpa using hnextO
      have hstep : extendOtherLoop h l idsO[j]? (fuel + 1)
          = extendOtherLoop (append h l hO[idsO[j]].item).1
              (append h l hO[idsO[j]].item).2 idsO[j + 1]? fuel := by
        rw [List.getElem?_eq_getElem hjl]
        show extendOtherLoop (extendStep h l idsO[j]).1
            (extendStep h l idsO[j]).2.1 (extendStep h l idsO[j]).2.2 fuel = _
        have hse : extendStep h l idsO[j]
            = ((append h l hO[idsO[j]].item).1,
               (append h l hO[idsO[j]].item).2, idsO[j + 1]?) := by
          simp only [extendStep, hnd, hread]
        rw [hse]
      rw [hstep]
      have hag2 : ∀ i, i ∈ idsO →
          (append h l hO[idsO[j]].item).1[i]? = hO[i]? := by
        intro i hi
        rw [hfr2 _ (by have := hwfO.mem_valid hi; omega) (hdisj _ hi), hag _ hi]
      have hdisj2 : ∀ i, i ∈ idsO → i ∉ ids ++ [h.length] := by
        intro i hi
        rw [List.mem_append]
        push_neg
        exact ⟨hdisj _ hi, by
          simp
          have := hwfO.mem_valid hi
          omega⟩
      obtain ⟨ids2, hWr, hIr, hlenr, hagr⟩ :=
        ih (j + 1) (append h l hO[idsO[j]].item).1
          (append h l hO[idsO[j]].item).2 (ids ++ [h.length])
          (by omega) (by omega) hW2 hag2 hdisj2
      refine ⟨ids2, hWr, ?_, hlenr, hagr⟩
      rw [hIr, hI2]
      have hitemO : itemAtD hO idsO[j] = hO[idsO[j]].item := by
        apply itemAtD_eq
        unfold itemAt
        rw [hndO]
        rfl
      have hjlt : j < (itemsOf hO idsO).length := by omega
      have hdropO : (itemsOf hO idsO).drop j
          = hO[idsO[j]].item :: (itemsOf hO idsO).drop (j + 1) := by
        rw [List.drop_eq_getElem_cons hjlt]
        congr 1
        rw [getElem_itemsOf hO idsO hjl, hitemO]
      rw [hdropO]
      simp
    · -- the source chain is exhausted
      have hnone : idsO[j]? = none := List.getElem?_eq_none (by omega)
      have hdrop : (itemsOf hO idsO).drop j = [] :=
        List.drop_eq_nil_of_le (by omega)
      rw [hnone, hdrop, extendOtherLoop_none]
      exact ⟨ids, hwf, by rw [List.append_nil], hlen, hag⟩

/-- What `extend` does on a well-formed pair of distinct lists sharing the
heap: every element of `other` is appended in order, and `other` itself —
its chain being disjoint from the destination's — is untouched. -/
theorem extendOther_spec [Inhabited α] {h : Heap α} {l other : DList α}
    {ids idsO : List Nat} (hwf : WFIds h l ids) (hwfO : WFIds h other idsO)
    (hdisj : ∀ i, i ∈ idsO → i ∉ ids) :
    ∃ ids2,
      WFIds (extendOther h l other).1 (extendOther h l other).2 ids2 ∧
      itemsOf (extendOther h l other).1 ids2
        = itemsOf h ids ++ itemsOf h idsO ∧
      WFIds (extendOther h l other).1 other idsO ∧
      itemsOf (extendOther h l other).1 idsO = itemsOf h idsO := by
  have hext : extendOther h l other
      = extendOtherLoop h l idsO[0]? (h.length + 1) := by
    unfold extendOther
    rw [hwfO.headEq, List.head?_eq_getElem?]
  have hfuel : idsO.length ≤ 0 + (h.length + 1) := by
    have := hwfO.length_le
    omega
  obtain ⟨ids2, hW, hI, hlen, hag⟩ := extendOtherLoop_spec hwfO
    (h.length + 1) 0 h l ids hfuel (Nat.le_refl _) hwf
    (fun i _ => rfl) hdisj
  rw [hext]
  refine ⟨ids2, hW, by rw [hI, List.drop_zero], ?_, ?_⟩
  · exact hwfO.frame hag
  · exact itemsOf_congr fun i hi => by unfold itemAt; rw [hag _ hi]

/-! ## Specification of `extend` (aliased case) -/

/-- The `for` loop of self-extension: after `k` of the `n = size` snapshot
iterations, the list is the original spine plus `k` fresh nodes and its
elements are the originals followed by the first `k` originals; the
remaining iterations keep walking the original spine (whose `next` links at
positions before `n - 1` are never touched by the appends), so the loop
lands on exactly the original elements and never chases the new nodes. -/
theorem extendSelfLoop_spec [Inhabited α] (h0 : Heap α) (ids : List Nat) :
    ∀ rem k (h : Heap α) (l : DList α) (extra : List Nat),
      k + rem = ids.length →
      WFIds h l (ids ++ extra) →
      extra.length = k →
      itemsOf h (ids ++ extra)
        = itemsOf h0 ids ++ (itemsOf h0 ids).take k →
      ∃ extra2,
        WFIds (extendSelfLoop h l ids[k]? rem).1
          (extendSelfLoop h l ids[k]? rem).2 (ids ++ extra2) ∧
        itemsOf (extendSelfLoop h l ids[k]? rem).1 (ids ++ extra2)
          = itemsOf h0 ids ++ itemsOf h0 ids := by
  have hl0 : (itemsOf h0 ids).length = ids.length := length_itemsOf h0 ids
  intro rem
  induction rem with
  | zero =>
    intro k h l extra hk hwf hex hI
    rw [extendSelfLoop_zero]
    refine ⟨extra, hwf, ?_⟩
    rw [hI]
    congr 1
    rw [show k = (itemsOf h0 ids).length by omega, List.take_length]
  | succ rem ih =>
    intro k h l extra hk hwf hex hI
    have hkl : k < ids.length := by omega
    have hkl2 : k < (ids ++ extra).length := by
      rw [List.length_append]
      omega
    have hgk : (ids ++ extra)[k] = ids[k] := List.getElem_append_left hkl
    have hvk : ids[k] < h.length := by
      have := hwf.valid (j := k) hkl2
      rw [hgk] at this
      exact this
    have hnd : h[ids[k]]? = some h[ids[k]] := List.getElem?_eq_getElem hvk
    -- the element about to be copied is the k-th original element
    have hitk : h[ids[k]].item = getElem (itemsOf h0 ids) k (by omega) := by
      have h1 : getElem (itemsOf h (ids ++ extra)) k (by
          rw [length_itemsOf, List.length_append]; omega)
          = itemAtD h ((ids ++ extra)[k]) := getElem_itemsOf h (ids ++ extra)
            hkl2
      rw [hgk] at h1
      have h2 : itemAtD h ids[k] = h[ids[k]].item := by
        apply itemAtD_eq
        unfold itemAt
        rw [hnd]
        rfl
      rw [h2] at h1
      have h3 : getElem (itemsOf h (ids ++ extra)) k (by
          rw [length_itemsOf, List.length_append]; omega)
          = getElem (itemsOf h0 ids ++ (itemsOf h0 ids).take k) k (by
            rw [← hI, length_itemsOf, List.length_append]; omega) := by
        congr 1
      have h4 : getElem (itemsOf h0 ids ++ (itemsOf h0 ids).take k) k (by
            rw [← hI, length_itemsOf, List.length_append]; omega)
          = getElem (itemsOf h0 ids) k (by omega) :=
        List.getElem_append_left (by omega)
      rw [← h1, h3, h4]
    obtain ⟨hW2, hlen2, hfr2, hpres2, hN2, hI2⟩ := append_spec hwf
      h[ids[k]].item
    -- after the append, the k-th node's next still leads down the original
    -- spine (read back from the mutated heap, as the source does)
    have hread : (((append h l h[ids[k]].item).1)[ids[k]]?).bind
        (fun nd => nd.next) = ((ids ++ extra) ++ [h.length])[k + 1]? := by
      have hx := hW2.nextOf (j := k) (by
        rw [List.length_append, List.length_append]; omega)
      have hgk2 : getElem ((ids ++ extra) ++ [h.length]) k (by
          rw [List.length_append, List.length_append]; omega) = ids[k] := by
        rw [List.getElem_append_left (by rw [List.length_append]; omega)]
        exact hgk
      rw [hgk2] at hx
      exact bind_next_eq hx
    have hstep : extendSelfLoop h l ids[k]? (rem + 1)
        = extendSelfLoop (append h l h[ids[k]].item).1
            (append h l h[ids[k]].item).2
            (((ids ++ extra) ++ [h.length])[k + 1]?) rem := by
      rw [List.getElem?_eq_getElem hkl]
      show extendSelfLoop (extendStep h l ids[k]).1
          (extendStep h l ids[k]).2.1 (extendStep h l ids[k]).2.2 rem = _
      have hse : extendStep h l ids[k]
          = ((append h l h[ids[k]].item).1,
             (append h l h[ids[k]].item).2,
             ((ids ++ extra) ++ [h.length])[k + 1]?) := by
        simp only [extendStep, hnd, hread]
      rw [hse]
    rw [hstep]
    -- the new element sequence matches the invariant at k + 1
    have hI3 : itemsOf (append h l h[ids[k]].item).1 ((ids ++ extra)
        ++ [h.length]) = itemsOf h0 ids ++ (itemsOf h0 ids).take (k + 1) := by
      rw [hI2, hI]
      rw [List.append_assoc]
      congr 1
      rw [hitk, ← List.concat_eq_append]
      exact List.take_concat_get (itemsOf h0 ids) k (by omega)
    rcases Nat.lt_or_ge (k + 1) ids.length with hk1 | hk1
    · -- still inside the snapshot: the loop lands on the next original node
      have hland : ((ids ++ extra) ++ [h.length])[k + 1]? = ids[k + 1]? := by
        rw [List.getElem?_append_left (by rw [List.length_append]; omega),
          List.getElem?_append_left hk1]
      rw [hland]
      have hwf3 : WFIds (append h l h[ids[k]].item).1
          (append h l h[ids[k]].item).2 (ids ++ (extra ++ [h.length])) := by
        rw [← List.append_assoc]
        exact hW2
      have hI4 : itemsOf (append h l h[ids[k]].item).1
          (ids ++ (extra ++ [h.length]))
          = itemsOf h0 ids ++ (itemsOf h0 ids).take (k + 1) := by
        rw [← List.append_assoc]
        exact hI3
      have harg1 : k + 1 + rem = ids.length := by omega
      have harg2 : (extra ++ [h.length]).length = k + 1 := by
        simp [hex]
      exact ih (k + 1) (append h l h[ids[k]].item).1
        (append h l h[ids[k]].item).2 (extra ++ [h.length]) harg1 hwf3
        harg2 hI4
    · -- the snapshot is exhausted: rem = 0 and the loop stops
      have hrem : rem = 0 := by omega
      subst hrem
      rw [extendSelfLoop_zero]
      refine ⟨extra ++ [h.length], ?_, ?_⟩
      · rw [← List.append_assoc]
        exact hW2
      · rw [← List.append_assoc, hI3]
        congr 1
        rw [show k + 1 = (itemsOf h0 ids).length by omega, List.take_length]

/-- What self-`extend` does on a well-formed list: the contents are doubled
in order — the snapshot bound `n = _size` keeps the loop from chasing the
nodes it appends. -/
theorem extendSelf_spec [Inhabited α] {h : Heap α} {l : DList α}
    {ids : List Nat} (hwf : WFIds h l ids) :
    ∃ ids2,
      WFIds (extendSelf h l).1 (extendSelf h l).2 ids2 ∧
      itemsOf (extendSelf h l).1 ids2 = itemsOf h ids ++ itemsOf h ids := by
  have hsize := hwf.sizeEq
  have hext : extendSelf h l = extendSelfLoop h l ids[0]? ids.length := by
    unfold extendSelf
    rw [hwf.headEq, List.head?_eq_getElem?, hsize, Int.toNat_ofNat]
  obtain ⟨extra2, hW, hI⟩ := extendSelfLoop_spec h ids ids.length 0 h l []
    (by omega) (by rw [List.append_nil]; exact hwf) rfl
    (by rw [List.append_nil, List.take_zero, List.append_nil])
  rw [hext]
  exact ⟨ids ++ extra2, hW, hI⟩

/-! ## Specification of `_copy` -/

theorem copyLoop_zero (h : Heap α) (node : Option Nat) (newNode : Nat) :
    copyLoop h node newNode 0 = (h, newNode) := by
  cases node <;> rfl

theorem copyLoop_none (h : Heap α) (newNode : Nat) (fuel : Nat) :
    copyLoop h none newNode fuel = (h, newNode) := by
  cases fuel <;> rfl

/-- The copy loop, having already duplicated the first `j` source nodes
into the fresh chain `bids`: it duplicates the rest, leaving every node
below the original heap boundary — the source included — untouched. -/
theorem copyLoop_spec [Inhabited α] {h0 : Heap α} {src : DList α}
    {idsS : List Nat} (hwfS : WFIds h0 src idsS) :
    ∀ fuel j (h : Heap α) (bids : List Nat) (newNode : Nat),
      1 ≤ j → j ≤ idsS.length → idsS.length ≤ j + fuel →
      h0.length ≤ h.length →
      (∀ i, i < h0.length → h[i]? = h0[i]?) →
      (∀ i, i ∈ bids → h0.length ≤ i ∧ i < h.length) →
      chainConds h bids →
      bids.length = j →
      bids.getLast? = some newNode →
      itemsOf h bids = (itemsOf h0 idsS).take j →
      ∃ bids2,
        bids2.head? = bids.head? ∧
        chainConds (copyLoop h idsS[j]? newNode fuel).1 bids2 ∧
        bids2.getLast? = some (copyLoop h idsS[j]? newNode fuel).2 ∧
        bids2.length = idsS.length ∧
        (∀ i, i ∈ bids2 → h0.length ≤ i ∧
          i < (copyLoop h idsS[j]? newNode fuel).1.length) ∧
        (∀ i, i < h0.length → (copyLoop h idsS[j]? newNode fuel).1[i]?
          = h0[i]?) ∧
        itemsOf (copyLoop h idsS[j]? newNode fuel).1 bids2
          = itemsOf h0 idsS := by
  have hlS : (itemsOf h0 idsS).length = idsS.length := length_itemsOf h0 idsS
  intro fuel
  induction fuel with
  | zero =>
    intro j h bids newNode hj1 hjS hjf hlen hagS hbid hcc hblen hblast hbI
    rw [copyLoop_zero]
    have hjeq : j = idsS.length := by omega
    refine ⟨bids, rfl, hcc, hblast, by omega, hbid, hagS, ?_⟩
    rw [hbI, hjeq, show idsS.length = (itemsOf h0 idsS).length by omega,
      List.take_length]
  | succ fuel ih =>
    intro j h bids newNode hj1 hjS hjf hlen hagS hbid hcc hblen hblast hbI
    by_cases hjl : j < idsS.length
    · -- duplicate the source node at position j
      have hvS : idsS[j] < h0.length := hwfS.valid hjl
      have hndS : h0[idsS[j]]? = some h0[idsS[j]] :=
        List.getElem?_eq_getElem hvS
      have hnd : h[idsS[j]]? = some h0[idsS[j]] := by
        rw [hagS _ hvS, hndS]
      have hnextS : h0[idsS[j]].next = idsS[j + 1]? := by
        have := hwfS.nextOf hjl
        unfold nextAt at this
        rw [hndS] at this
        simpa using this
      have hitemS : itemAtD h0 idsS[j] = h0[idsS[j]].item := by
        apply itemAtD_eq
        unfold itemAt
        rw [hndS]
        rfl
      -- the loop body is exactly an `append` on the phantom handle of the
      -- partial copy chain
      have hbne : bids ≠ [] := by
        intro hc
        rw [hc] at hblen
        simp at hblen
        omega
      have hwfF : WFIds h ⟨bids.head?, some newNode, (bids.length : Int)⟩
          bids := ⟨rfl, hblast.symm, rfl, hcc⟩
      have happF : append h ⟨bids.head?, some newNode, (bids.length : Int)⟩
            h0[idsS[j]].item
          = (setNext (h ++ [⟨h0[idsS[j]].item, none, some newNode⟩]) newNode
              (some h.length),
             ⟨bids.head?, some h.length, (bids.length : Int) + 1⟩) := by
        unfold append
        rw [if_neg (show ¬ ((⟨bids.head?, some newNode,
            (bids.length : Int)⟩ : DList α).size = 0) by
          show ¬ ((bids.length : Int) = 0)
          omega)]
      obtain ⟨hW2, hlen2, hfr2, hpres2, hN2, hI2⟩ :=
        append_spec hwfF h0[idsS[j]].item
      rw [happF] at hW2 hlen2 hfr2 hpres2 hN2 hI2
      have hnewlt : newNode < h.length := by
        have : newNode ∈ bids := by
          have := List.getLast?_eq_getElem? bids
          rw [hblast] at this
          exact List.getElem?_mem this.symm
        exact (hbid _ this).2
      have hnewge : h0.length ≤ newNode := by
        have : newNode ∈ bids := by
          have := List.getLast?_eq_getElem? bids
          rw [hblast] at this
          exact List.getElem?_mem this.symm
        exact (hbid _ this).1
      -- reduce one unfolding of the loop
      have hread : (((setNext (h ++ [⟨h0[idsS[j]].item, none, some newNode⟩])
          newNode (some h.length))[idsS[j]]?).bind (fun nd => nd.next))
          = idsS[j + 1]? := by
        rw [getElem?_setNext_ne _ _ (show idsS[j] ≠ newNode by omega),
          List.getElem?_append_left (by omega), hnd]
        simpa using hnextS
      have hstep : copyLoop h idsS[j]? newNode (fuel + 1)
          = copyLoop (setNext (h ++ [⟨h0[idsS[j]].item, none, some newNode⟩])
              newNode (some h.length)) idsS[j + 1]? h.length fuel := by
        rw [List.getElem?_eq_getElem hjl]
        simp only [copyLoop, hnd]
        rw [hread]
      rw [hstep]
      -- re-establish the invariants for the grown chain
      have hagS2 : ∀ i, i < h0.length →
          (setNext (h ++ [⟨h0[idsS[j]].item, none, some newNode⟩]) newNode
            (some h.length))[i]? = h0[i]? := by
        intro i hi
        rw [hfr2 _ (by omega) (fun hmem => by
          have := hbid _ hmem
          omega), hagS _ hi]
      have hbid2 : ∀ i, i ∈ bids ++ [h.length] → h0.length ≤ i ∧
          i < (setNext (h ++ [⟨h0[idsS[j]].item, none, some newNode⟩])
            newNode (some h.length)).length := by
        intro i hi
        rw [hlen2]
        rcases List.mem_append.mp hi with hi | hi
        · have := hbid _ hi
          omega
        · have : i = h.length := by simpa using hi
          omega
      have hitemj : itemAtD (setNext (h ++ [⟨h0[idsS[j]].item, none,
          some newNode⟩]) newNode (some h.length)) h.length
          = h0[idsS[j]].item := itemAtD_eq hN2
      have hbI2 : itemsOf (setNext (h ++ [⟨h0[idsS[j]].item, none,
          some newNode⟩]) newNode (some h.length)) (bids ++ [h.length])
          = (itemsOf h0 idsS).take (j + 1) := by
        rw [hI2, hbI, ← List.concat_eq_append]
        rw [show h0[idsS[j]].item = getElem (itemsOf h0 idsS) j (by omega) by
          rw [getElem_itemsOf h0 idsS hjl, hitemS]]
        exact List.take_concat_get (itemsOf h0 idsS) j (by omega)
      obtain ⟨bids2, hhd, hccr, hlastr, hlenr, hbidr, hagr, hIr⟩ :=
        ih (j + 1) _ (bids ++ [h.length]) h.length (by omega) (by omega)
          (by omega) (by rw [hlen2]; omega) hagS2 hbid2 hW2.2.2.2
          (by simp [hblen]) (List.getLast?_concat _)
          hbI2
      refine ⟨bids2, ?_, hccr, hlastr, hlenr, hbidr, hagr, hIr⟩
      rw [hhd, head?_append_of_ne_nil _ hbne]
    · -- source exhausted (only when the fuel outlasts the chain)
      have hnone : idsS[j]? = none := List.getElem?_eq_none (by omega)
      have hjeq : j = idsS.length := by omega
      rw [hnone, copyLoop_none]
      refine ⟨bids, rfl, hcc, hblast, by omega, ?_, ?_, ?_⟩
      · intro i hi
        exact hbid _ hi
      · intro i hi
        exact hagS _ hi
      · rw [hbI, hjeq, show idsS.length = (itemsOf h0 idsS).length by omega,
          List.take_length]

/-- What `_copy` does on a well-formed source in a shared heap: it builds a
brand-new well-formed list of equal element values in the same order, all
of whose nodes are fresh (at or beyond the old heap boundary), leaving
every pre-existing node — in particular the whole source — untouched. -/
theorem _copy_spec [Inhabited α] {h : Heap α} {src : DList α}
    {idsS : List Nat} (hwfS : WFIds h src idsS) :
    ∃ ids2,
      WFIds (_copy h src).1 (_copy h src).2 ids2 ∧
      itemsOf (_copy h src).1 ids2 = itemsOf h idsS ∧
      (∀ i, i ∈ ids2 → h.length ≤ i) ∧
      (∀ i, i < h.length → (_copy h src).1[i]? = h[i]?) ∧
      WFIds (_copy h src).1 src idsS ∧
      itemsOf (_copy h src).1 idsS = itemsOf h idsS := by
  have hsize := hwfS.sizeEq
  cases hids : idsS with
  | nil =>
    have hhd : src.head = none := by
      rw [hwfS.headEq, hids]
      rfl
    have hcp : _copy h src = (h, ⟨none, none, src.size⟩) := by
      simp only [_copy, hhd]
    rw [hcp]
    refine ⟨[], ⟨rfl, rfl, by rw [hsize, hids], by simp [chainConds]⟩,
      rfl, by simp, fun i _ => rfl, ?_, rfl⟩
    rw [← hids]
    exact hwfS
  | cons i0 rest =>
    have hlenpos : 0 < idsS.length := by rw [hids]; simp
    rw [← hids]
    have hhd : src.head = some idsS[0] := by
      rw [hwfS.headEq, List.head?_eq_getElem?, List.getElem?_eq_getElem
        hlenpos]
    have hv0 : idsS[0] < h.length := hwfS.valid hlenpos
    have hnd0 : h[idsS[0]]? = some h[idsS[0]] := List.getElem?_eq_getElem hv0
    have hnext0 : h[idsS[0]].next = idsS[0 + 1]? := by
      have := hwfS.nextOf hlenpos
      unfold nextAt at this
      rw [hnd0] at this
      simpa using this
    have hitem0 : itemAtD h idsS[0] = h[idsS[0]].item := by
      apply itemAtD_eq
      unfold itemAt
      rw [hnd0]
      rfl
    have hread : (((h ++ [⟨h[idsS[0]].item, none, none⟩])[idsS[0]]?).bind
        (fun nd => nd.next)) = idsS[0 + 1]? := by
      rw [List.getElem?_append_left hv0, hnd0]
      simpa using hnext0
    have hcp : _copy h src
        = ((copyLoop (h ++ [⟨h[idsS[0]].item, none, none⟩]) idsS[0 + 1]?
              h.length (h.length + 1)).1,
           ⟨some h.length,
            some (copyLoop (h ++ [⟨h[idsS[0]].item, none, none⟩]) idsS[0 + 1]?
              h.length (h.length + 1)).2, src.size⟩) := by
      simp only [_copy, hhd, hnd0]
      rw [hread]
    -- the invariants at entry of the loop, with the head already copied
    have hcc1 : chainConds (h ++ [⟨h[idsS[0]].item, none, none⟩])
        [h.length] := by
      refine ⟨by simp, ?_⟩
      intro j hj
      have hj0 : j = 0 := by simpa using hj
      subst hj0
      have hN : (h ++ [(⟨h[idsS[0]].item, none, none⟩ :
          DListNode α)])[h.length]? = some ⟨h[idsS[0]].item, none, none⟩ :=
        List.getElem?_concat_length h _
      constructor
      · show nextAt _ h.length = _
        unfold nextAt
        rw [hN]
        rfl
      · show prevAt _ h.length = _
        unfold prevAt
        rw [hN]
        rfl
    have h1 : itemAtD (h ++ [⟨h[idsS[0]].item, none, none⟩]) h.length
        = h[idsS[0]].item := by
      apply itemAtD_eq
      unfold itemAt
      rw [List.getElem?_concat_length]
      rfl
    have htake1 : (itemsOf h idsS).take 1 = [itemAtD h idsS[0]] := by
      have hlen1 : 0 < (itemsOf h idsS).length := by
        rw [length_itemsOf]
        omega
      cases hx : itemsOf h idsS with
      | nil => rw [hx] at hlen1; simp at hlen1
      | cons y ys =>
        have hy : y = itemAtD h idsS[0] := by
          have h0q : (itemsOf h idsS)[0]? = some (itemAtD h idsS[0]) := by
            rw [List.getElem?_eq_getElem hlen1,
              getElem_itemsOf h idsS hlenpos]
          rw [hx] at h0q
          simpa using h0q
        rw [List.take_succ_cons, List.take_zero, hy]
    have hbI1 : itemsOf (h ++ [⟨h[idsS[0]].item, none, none⟩]) [h.length]
        = (itemsOf h idsS).take 1 := by
      rw [htake1]
      show [itemAtD (h ++ [⟨h[idsS[0]].item, none, none⟩]) h.length] = _
      rw [h1, ← hitem0]
    obtain ⟨bids2, hhd, hccr, hlastr, hlenr, hbidr, hagr, hIr⟩ :=
      copyLoop_spec hwfS (h.length + 1) 1 (h ++ [⟨h[idsS[0]].item, none,
        none⟩]) [h.length] h.length (Nat.le_refl 1) (by omega)
        (by have := hwfS.length_le; omega)
        (by simp)
        (fun i hi => List.getElem?_append_left hi)
        (by
          intro i hi
          have : i = h.length := by simpa using hi
          subst this
          exact ⟨Nat.le_refl _, by simp⟩)
        hcc1 rfl (by simp) hbI1
    rw [hcp]
    refine ⟨bids2, ⟨?_, hlastr.symm, ?_, hccr⟩, hIr, ?_, hagr, ?_, ?_⟩
    · show some h.length = bids2.head?
      rw [hhd]
      rfl
    · show src.size = (bids2.length : Int)
      rw [hsize, hlenr]
    · intro i hi
      exact (hbidr i hi).1
    · exact hwfS.frame fun i hi => hagr i (hwfS.mem_valid hi)
    · refine itemsOf_congr fun i hi => ?_
      unfold itemAt
      rw [hagr i (hwfS.mem_valid hi)]

/-! ## Specification of `index` -/

theorem indexLoop_zero [DecidableEq α] (h : Heap α) (x : α)
    (node : Option Nat) (idx : Nat) :
    indexLoop h x node idx 0 = NOT_FOUND := by
  cases node <;> rfl

theorem indexLoop_none [DecidableEq α] (h : Heap α) (x : α) (idx fuel : Nat) :
    indexLoop h x none idx fuel = NOT_FOUND := by
  cases fuel <;> rfl

/-- The scan loop of `index`, started at spine position `j` with counter
`idx`: as long as the counter cannot reach `2^64` before the scan runs off
the spine (so the `size_t` increment never wraps), it returns `idx` plus
the offset of the first element equal to `x` at or after `j`, or the
sentinel if there is none. -/
theorem indexLoop_spec [Inhabited α] [DecidableEq α] {h : Heap α}
    {l : DList α} {ids : List Nat} (hwf : WFIds h l ids) (x : α) :
    ∀ fuel j idx, ids.length ≤ j + fuel →
      idx + ids.length < j + 2 ^ 64 →
      indexLoop h x ids[j]? idx fuel
        = match firstIdxOf x ((itemsOf h ids).drop j) with
          | some d => idx + d
          | none => NOT_FOUND := by
  have hlitems : (itemsOf h ids).length = ids.length := length_itemsOf h ids
  intro fuel
  induction fuel with
  | zero =>
    intro j idx hj hcap
    have hdrop : (itemsOf h ids).drop j = [] :=
      List.drop_eq_nil_of_le (by omega)
    rw [hdrop, indexLoop_zero]
    rfl
  | succ fuel ih =>
    intro j idx hj hcap
    by_cases hjl : j < ids.length
    · have hvl := hwf.valid hjl
      have hnd : h[ids[j]]? = some h[ids[j]] := List.getElem?_eq_getElem hvl
      have hnext : h[ids[j]].next = ids[j + 1]? := by
        have := hwf.nextOf hjl
        unfold nextAt at this
        rw [hnd] at this
        simpa using this
      have hitemj : itemAtD h ids[j] = h[ids[j]].item := by
        apply itemAtD_eq
        unfold itemAt
        rw [hnd]
        rfl
      have hjit : j < (itemsOf h ids).length := by omega
      have hdrop : (itemsOf h ids).drop j
          = h[ids[j]].item :: (itemsOf h ids).drop (j + 1) := by
        rw [List.drop_eq_getElem_cons hjit]
        congr 1
        rw [getElem_itemsOf h ids hjl, hitemj]
      have hstep : indexLoop h x ids[j]? idx (fuel + 1)
          = if h[ids[j]].item = x then idx
            else indexLoop h x ids[j + 1]? (idx + 1) fuel := by
        rw [List.getElem?_eq_getElem hjl]
        simp only [indexLoop, hnd, hnext]
        rw [Nat.mod_eq_of_lt (show idx + 1 < 2 ^ 64 by omega)]
      rw [hstep, hdrop]
      by_cases hit : h[ids[j]].item = x
      · rw [if_pos hit, firstIdxOf, if_pos hit]
        show idx = idx + 0
        omega
      · rw [if_neg hit, firstIdxOf, if_neg hit, ih (j + 1) (idx + 1)
          (by omega) (by omega)]
        cases hrec : firstIdxOf x ((itemsOf h ids).drop (j + 1)) with
        | none => rfl
        | some d =>
          show idx + 1 + d = idx + (d + 1)
          omega
    · have hnone : ids[j]? = none := List.getElem?_eq_none (by omega)
      have hdrop : (itemsOf h ids).drop j = [] :=
        List.drop_eq_nil_of_le (by omega)
      rw [hnone, hdrop, indexLoop_none]
      rfl

/-- What `index` does on a well-formed list whose `start` is below `2^63`
(so the `size_t → long` conversion preserves it) and whose length fits in
a `long` (so the counter never wraps): the counter starts at `start` (the
position `_find` resolved), so the result is `start` plus the offset of
the first match among the elements from `start` on — or the sentinel
`(size_t)(-1)`, also when `start` is past the end.  A `start` at or above
`2^63` wraps to a negative `long` instead; claims C8 and C10 carry the
concrete counterexample. -/
theorem index_spec [Inhabited α] [DecidableEq α] {h : Heap α} {l : DList α}
    {ids : List Nat} (hwf : WFIds h l ids) (x : α) (start : Nat)
    (hstart : start < 2 ^ 63) (hlen : ids.length < 2 ^ 63) :
    index h l x start
      = match firstIdxOf x ((itemsOf h ids).drop start) with
        | some d => start + d
        | none => NOT_FOUND := by
  have hsize := hwf.sizeEq
  have hlitems : (itemsOf h ids).length = ids.length := length_itemsOf h ids
  unfold index
  have hconv : longOfSizeT start = (start : Int) := by
    unfold longOfSizeT
    rw [if_pos hstart]
  rw [hconv]
  by_cases hs : start < ids.length
  · have hfind : _find h l (start : Int) = ids[start]? := by
      rw [_find_nonneg hwf (by omega) (by omega)]
      rfl
    rw [hfind]
    exact indexLoop_spec hwf x (h.length + 1) start start
      (by have := hwf.length_le; omega) (by omega)
  · have hfind : _find h l (start : Int) = none :=
      _find_out (Or.inl (by omega))
    have hdrop : (itemsOf h ids).drop start = [] :=
      List.drop_eq_nil_of_le (by omega)
    rw [hfind, hdrop, indexLoop_none]
    rfl

/-! ## Frame property of writes through `operator[]` -/

/-- A write through the mutable `operator[]` of one list never changes any
node outside that list's spine — in particular it cannot change another
list with a disjoint spine. -/
theorem setPos_frame {h : Heap α} {l : DList α} {ids : List Nat}
    (hwf : WFIds h l ids) (p : Int) (v : α) :
    ∀ i, i ∉ ids → (setPos h l p v)[i]? = h[i]? := by
  intro i hi
  unfold setPos
  cases hf : _find h l p with
  | none => rfl
  | some c =>
    have hc : c ∈ ids := _find_mem hwf hf
    refine getElem?_setItem_ne _ _ ?_
    intro hic
    rw [hic] at hi
    exact hi hc

/-! ## Lists built by successive appends -/

/-- Folding `append` over a list of values extends a well-formed list by
exactly those values. -/
theorem foldl_append_wf [Inhabited α] :
    ∀ (vs : List α) (h : Heap α) (l : DList α) (ids : List Nat),
      WFIds h l ids →
      ∃ ids2,
        WFIds (vs.foldl (fun s v => append s.1 s.2 v) (h, l)).1
          (vs.foldl (fun s v => append s.1 s.2 v) (h, l)).2 ids2 ∧
        itemsOf (vs.foldl (fun s v => append s.1 s.2 v) (h, l)).1 ids2
          = itemsOf h ids ++ vs := by
  intro vs
  induction vs with
  | nil =>
    intro h l ids hwf
    refine ⟨ids, hwf, ?_⟩
    show itemsOf h ids = itemsOf h ids ++ []
    rw [List.append_nil]
  | cons v vs ih =>
    intro h l ids hwf
    obtain ⟨hW2, _, _, _, _, hI2⟩ := append_spec hwf v
    obtain ⟨ids2, hWr, hIr⟩ :=
      ih (append h l v).1 (append h l v).2 (ids ++ [h.length]) hW2
    refine ⟨ids2, ?_, ?_⟩
    · show WFIds (List.foldl (fun s v => append s.1 s.2 v)
          ((append h l v).1, (append h l v).2) vs).1
        (List.foldl (fun s v => append s.1 s.2 v)
          ((append h l v).1, (append h l v).2) vs).2 ids2
      exact hWr
    · show itemsOf (List.foldl (fun s v => append s.1 s.2 v)
          ((append h l v).1, (append h l v).2) vs).1 ids2
        = itemsOf h ids ++ (v :: vs)
      rw [hIr, hI2, List.append_assoc]
      rfl

/-- A list built by `n` appends of `vs` is well-formed with elements
exactly `vs`. -/
theorem buildList_wf [Inhabited α] (vs : List α) :
    ∃ ids,
      WFIds (buildList vs).1 (buildList vs).2 ids ∧
      itemsOf (buildList vs).1 ids = vs := by
  obtain ⟨ids, hW, hI⟩ := foldl_append_wf vs [] DList.empty []
    ⟨rfl, rfl, rfl, by simp [chainConds]⟩
  exact ⟨ids, hW, by simpa using hI⟩

/-! ## Structural-invariant content: the traversal characterisations -/

theorem clampPos_zero {size : Int} (hs : 0 ≤ size) : clampPos size 0 = 0 := by
  simp only [clampPos]
  split_ifs <;> omega

/-- On a well-formed list: `size = 0` iff `head`/`tail` are null, forward
traversal from `head` dies after exactly `size` steps with the node after
`size - 1` steps being `tail`, and backward traversal from `tail` dies
after exactly `size` steps. -/
theorem WFIds.walk_props {h : Heap α} {l : DList α} {ids : List Nat}
    (hwf : WFIds h l ids) :
    (l.size = 0 ↔ l.head = none) ∧
    (l.size = 0 ↔ l.tail = none) ∧
    (∀ k : Nat, walkFwd h l.head k = none ↔ l.size ≤ (k : Int)) ∧
    (1 ≤ l.size → walkFwd h l.head (l.size.toNat - 1) = l.tail) ∧
    (∀ k : Nat, walkBwd h l.tail k = none ↔ l.size ≤ (k : Int)) := by
  have hsize := hwf.sizeEq
  have hhd : l.head = ids[0]? := by
    rw [hwf.headEq, List.head?_eq_getElem?]
  have htl : l.tail = ids[ids.length - 1]? := by
    rw [hwf.tailEq, List.getLast?_eq_getElem?]
  have hfwd : ∀ k : Nat, walkFwd h l.head k = ids[k]? := by
    intro k
    rw [hhd]
    have := walkFwd_wf hwf k 0
    simpa using this
  refine ⟨?_, ?_, ?_, ?_, ?_⟩
  · rw [hhd]
    constructor
    · intro h0
      exact List.getElem?_eq_none (by omega)
    · intro h0
      have := List.getElem?_eq_none_iff.mp h0
      omega
  · rw [htl]
    constructor
    · intro h0
      exact List.getElem?_eq_none (by omega)
    · intro h0
      have := List.getElem?_eq_none_iff.mp h0
      by_cases hlen : ids.length = 0
      · omega
      · omega
  · intro k
    rw [hfwd k]
    constructor
    · intro h0
      have := List.getElem?_eq_none_iff.mp h0
      omega
    · intro h0
      exact List.getElem?_eq_none (by omega)
  · intro h1
    have hlen : 0 < ids.length := by omega
    rw [hfwd, htl]
    congr 1
    omega
  · intro k
    by_cases hlen : ids.length = 0
    · have htln : l.tail = none := by
        rw [htl]
        exact List.getElem?_eq_none (by omega)
      rw [htln]
      have : walkBwd h none k = none := by cases k <;> rfl
      rw [this]
      constructor
      · intro
        omega
      · intro
        rfl
    · have hlast : ids.length - 1 < ids.length := by omega
      have htls : l.tail = some ids[ids.length - 1] := by
        rw [htl, List.getElem?_eq_getElem hlast]
      rw [htls, walkBwd_wf hwf k (ids.length - 1) hlast]
      by_cases hk : k ≤ ids.length - 1
      · rw [if_pos hk, List.getElem?_eq_getElem
          (show ids.length - 1 - k < ids.length by omega)]
        constructor
        · intro hc
          cases hc
        · intro hc
          omega
      · rw [if_neg hk]
        constructor
        · intro
          omega
        · intro
          rfl

/-! ## The claims -/

/-- C2: for a list built by `n` appends of `v0 … v(n-1)`, the const
`operator[]` returns `vi` at position `i` and the same `vi` at position
`i - n`, for every `0 ≤ i < n`. -/
theorem claim_C2 {α : Type} [Inhabited α] (vs : List α) (i : Nat)
    (hi : i < vs.length) :
    getPos (buildList vs).1 (buildList vs).2 (i : Int) = vs[i] ∧
    getPos (buildList vs).1 (buildList vs).2 ((i : Int) - vs.length)
      = vs[i] := by
  obtain ⟨ids, hwf, hitems⟩ := buildList_wf vs
  have hsize := hwf.sizeEq
  have hlen : ids.length = vs.length := by
    have h1 := length_itemsOf (buildList vs).1 ids
    rw [hitems] at h1
    exact h1.symm
  have hilen : i < ids.length := by omega
  have hival : itemAtD (buildList vs).1 ids[i] = vs[i] := by
    have h1 := getElem_itemsOf (buildList vs).1 ids hilen
    have h2 : (itemsOf (buildList vs).1 ids)[i]? = some vs[i] := by
      rw [hitems, List.getElem?_eq_getElem hi]
    rw [List.getElem?_eq_getElem (show i <
      (itemsOf (buildList vs).1 ids).length by
        rw [length_itemsOf]; omega), h1] at h2
    exact Option.some.inj h2
  constructor
  · unfold getPos
    rw [_find_nonneg hwf (by omega) (by omega),
      show ((i : Int)).toNat = i from rfl,
      List.getElem?_eq_getElem (show i < ids.length by omega)]
    exact hival
  · unfold getPos
    rw [_find_neg hwf (by omega) (by omega)]
    have harith : (((i : Int) - vs.length) + (buildList vs).2.size).toNat
        = i := by
      rw [hsize]
      omega
    rw [harith, List.getElem?_eq_getElem (show i < ids.length by omega)]
    exact hival

/-- C9: `_find` resolves to null exactly for positions outside
`[-size, size)` (the guard — never an exception), so under the documented
precondition the unguarded dereference in `operator[]` always finds an
existing node, whose stored element is what `operator[]` returns. -/
theorem claim_C9 {α : Type} [Inhabited α] {h : Heap α} {l : DList α}
    {ids : List Nat} (hwf : WFIds h l ids) (position : Int) :
    (_find h l position = none ↔
      (l.size ≤ position ∨ position < -l.size)) ∧
    (-l.size ≤ position → position < l.size →
      ∃ i nd, _find h l position = some i ∧ h[i]? = some nd ∧
        getPos h l position = nd.item) := by
  have hsize := hwf.sizeEq
  constructor
  · constructor
    · intro hnone
      by_contra hc
      push_neg at hc
      by_cases h0 : 0 ≤ position
      · rw [_find_nonneg hwf h0 (by omega), List.getElem?_eq_getElem
          (show position.toNat < ids.length by omega)] at hnone
        cases hnone
      · rw [_find_neg hwf (by omega) (by omega), List.getElem?_eq_getElem
          (show (position + l.size).toNat < ids.length by omega)] at hnone
        cases hnone
    · intro hc
      exact _find_out (by omega)
  · intro hlo hhi
    by_cases h0 : 0 ≤ position
    · have hm : position.toNat < ids.length := by omega
      have hfind : _find h l position = some ids[position.toNat] := by
        rw [_find_nonneg hwf h0 (by omega),
          List.getElem?_eq_getElem hm]
      have hvl := hwf.valid hm
      refine ⟨ids[position.toNat], h[ids[position.toNat]], hfind,
        List.getElem?_eq_getElem hvl, ?_⟩
      unfold getPos
      rw [hfind]
      apply itemAtD_eq
      unfold itemAt
      rw [List.getElem?_eq_getElem hvl]
      rfl
    · have hm : (position + l.size).toNat < ids.length := by omega
      have hfind : _find h l position
          = some ids[(position + l.size).toNat] := by
        rw [_find_neg hwf (by omega) (by omega),
          List.getElem?_eq_getElem hm]
      have hvl := hwf.valid hm
      refine ⟨ids[(position + l.size).toNat],
        h[ids[(position + l.size).toNat]], hfind,
        List.getElem?_eq_getElem hvl, ?_⟩
      unfold getPos
      rw [hfind]
      apply itemAtD_eq
      unfold itemAt
      rw [List.getElem?_eq_getElem hvl]
      rfl

/-- C10 (corrected): `index(x, start)` with `length() ≤ start` returns the
not-found sentinel for every `x` — but only for `start < 2^63`, where the
`size_t → long` conversion preserves the value and `_find` resolves it to
null before any traversal (`index` is a pure reader in this model, so
nothing is touched; no well-formedness is needed: it is the literal
guard).  The original claim quantified over every `start ≥ length()` and
is false of the program in the wrap region `start ≥ 2^63`: there the
conversion makes `start` negative and `_find` can resolve a tail-relative
node, see the counterexample. -/
theorem claim_C10 {α : Type} [Inhabited α] [DecidableEq α] (h : Heap α)
    (l : DList α) (x : α) (start : Nat) (hs : l.size ≤ (start : Int))
    (hw : start < 2 ^ 63) :
    index h l x start = NOT_FOUND := by
  unfold index
  have hconv : longOfSizeT start = (start : Int) := by
    unfold longOfSizeT
    rw [if_pos hw]
  rw [hconv, _find_out (Or.inl hs), indexLoop_none]

/-- C3: `insert` first normalizes the position (add `size` when negative,
clamp below by 0 and above by `size` — `clampPos`) and yields exactly the
original list with `x` placed at the clamped index, the size incremented by
one; inserting at or beyond `size` is the very same call as `append`, and
inserting below `-size` is the very same call as inserting at 0.  `insert`
is total — it never fails. -/
theorem claim_C3 {α : Type} [Inhabited α] {h : Heap α} {l : DList α}
    {ids : List Nat} (hwf : WFIds h l ids) (position : Int) (x : α) :
    (∃ ids2,
      WFIds (insert h l position x).1 (insert h l position x).2 ids2 ∧
      itemsOf (insert h l position x).1 ids2
        = listInsertAt (itemsOf h ids) (clampPos l.size position).toNat x ∧
      (insert h l position x).2.size = l.size + 1) ∧
    (l.size ≤ position → insert h l position x = append h l x) ∧
    (position < -l.size → insert h l position x = insert h l 0 x) := by
  have hsize := hwf.sizeEq
  have hsz0 : (0 : Int) ≤ l.size := by omega
  obtain ⟨hW, hlen, hfr, hit, hI⟩ := insert_spec hwf position x
  refine ⟨⟨listInsertAt ids (clampPos l.size position).toNat h.length,
      hW, hI, ?_⟩, ?_, ?_⟩
  · have h1 := hW.sizeEq
    rw [h1, length_listInsertAt _ (by
      have : clampPos l.size position ≤ l.size := clampPos_le hsz0
      have : 0 ≤ clampPos l.size position := clampPos_nonneg hsz0
      omega)]
    push_cast
    omega
  · intro hge
    have hcl : clampPos l.size position = l.size := clampPos_of_ge hsz0 hge
    simp only [insert]
    rw [if_pos (Or.inr hcl)]
  · intro hlt
    have hcl : clampPos l.size position = clampPos l.size 0 := by
      rw [clampPos_of_le_neg hsz0 hlt, clampPos_zero hsz0]
    unfold insert
    rw [hcl]

/-- C4: `pop(position)` (C++ default `-1`, the last element) removes and
returns the element at the normalized position when it lies in
`[0, size)`; otherwise it returns a default-constructed element and leaves
heap and handle *exactly* unchanged (no exception in the source — the
guard returns early). -/
theorem claim_C4 {α : Type} [Inhabited α] {h : Heap α} {l : DList α}
    {ids : List Nat} (hwf : WFIds h l ids) (position : Int) :
    (∀ (m : Nat)
      (_hm : (if position < 0 then position + l.size else position)
        = (m : Int))
      (hms : m < ids.length),
      (pop h l position).1 = itemAtD h ids[m] ∧
      ∃ ids2,
        WFIds (pop h l position).2.1 (pop h l position).2.2 ids2 ∧
        itemsOf (pop h l position).2.1 ids2
          = listEraseAt (itemsOf h ids) m ∧
        (pop h l position).2.2.size = l.size - 1) ∧
    ((if position < 0 then position + l.size else position) < 0 ∨
      l.size ≤ (if position < 0 then position + l.size else position) →
      pop h l position = (default, h, l)) ∧
    (∀ (h1 : 1 ≤ ids.length),
      (pop h l (-1)).1 = itemAtD h ids[ids.length - 1]) := by
  have hsize := hwf.sizeEq
  refine ⟨?_, ?_, ?_⟩
  · intro m hm hms
    obtain ⟨hval, hW, _, _, _, hI⟩ := _delete_spec hwf hm hms
    refine ⟨hval, listEraseAt ids m, hW, hI, ?_⟩
    show (_delete h l position).2.2.size = l.size - 1
    rw [hW.sizeEq, length_listEraseAt hms]
    omega
  · intro hout
    exact _delete_out h l position (by omega)
  · intro h1
    have hm : (if (-1 : Int) < 0 then -1 + l.size else -1)
        = ((ids.length - 1 : Nat) : Int) := by
      rw [if_pos (by omega)]
      omega
    have hms : ids.length - 1 < ids.length := by omega
    exact (_delete_spec hwf hm hms).1

/-- C5: `remove(x)` removes exactly the first node whose element equals
`x` — the occurrence at the smallest index, as `firstIdxOf` is here proved
to compute — shrinking the size by one and keeping every other element in
order; when no element equals `x` the heap and handle are exactly
unchanged and nothing is reported. -/
theorem claim_C5 {α : Type} [Inhabited α] [DecidableEq α] {h : Heap α}
    {l : DList α} {ids : List Nat} (hwf : WFIds h l ids) (x : α) :
    (firstIdxOf x (itemsOf h ids) = none → remove h l x = (h, l)) ∧
    (∀ m, firstIdxOf x (itemsOf h ids) = some m →
      (itemsOf h ids)[m]? = some x ∧
      (∀ k, k < m → (itemsOf h ids)[k]? ≠ some x) ∧
      ∃ ids2,
        WFIds (remove h l x).1 (remove h l x).2 ids2 ∧
        itemsOf (remove h l x).1 ids2 = listEraseAt (itemsOf h ids) m ∧
        (remove h l x).2.size = l.size - 1) := by
  obtain ⟨hnone, hsome⟩ := remove_spec hwf x
  have hsize := hwf.sizeEq
  refine ⟨hnone, ?_⟩
  intro m hm
  obtain ⟨hmx, hmfirst⟩ := firstIdxOf_some x (itemsOf h ids) m hm
  obtain ⟨hW, hI, _, _, _⟩ := hsome m hm
  have hmlen : m < ids.length := by
    have := (List.getElem?_eq_some_iff.mp hmx).1
    rw [length_itemsOf] at this
    exact this
  refine ⟨hmx, hmfirst, listEraseAt ids m, hW, hI, ?_⟩
  have h1 := hW.sizeEq
  rw [h1, length_listEraseAt hmlen]
  omega

/-- C6: `extend(other)` appends every element of `other`, in order, to the
end of this list.  For a distinct `other` (disjoint chains in the shared
heap) `other`'s own chain and contents are untouched; for the aliased call
(`&otherList == this`, the source's snapshot branch) the contents are
doubled in order — the loop never chases the newly appended nodes. -/
theorem claim_C6 {α : Type} [Inhabited α] {h : Heap α} {l other : DList α}
    {ids idsO : List Nat} (hwf : WFIds h l ids)
    (hwfO : WFIds h other idsO) (hdisj : ∀ i, i ∈ idsO → i ∉ ids) :
    (∃ ids2,
      WFIds (extendOther h l other).1 (extendOther h l other).2 ids2 ∧
      itemsOf (extendOther h l other).1 ids2
        = itemsOf h ids ++ itemsOf h idsO) ∧
    (WFIds (extendOther h l other).1 other idsO ∧
      itemsOf (extendOther h l other).1 idsO = itemsOf h idsO) ∧
    (∃ ids3,
      WFIds (extendSelf h l).1 (extendSelf h l).2 ids3 ∧
      itemsOf (extendSelf h l).1 ids3 = itemsOf h ids ++ itemsOf h ids) := by
  obtain ⟨ids2, hW, hI, hWO, hIO⟩ := extendOther_spec hwf hwfO hdisj
  obtain ⟨ids3, hW3, hI3⟩ := extendSelf_spec hwf
  exact ⟨⟨ids2, hW, hI⟩, ⟨hWO, hIO⟩, ⟨ids3, hW3, hI3⟩⟩

/-- C7: copy construction (and copy assignment, which for a distinct
source is the very same `_copy` call after a clear that the rebuild fully
overwrites) produces a list of equal length and equal element values in
order, built from brand-new nodes, so that a subsequent element write
through `operator[]` on either list leaves the other's elements unchanged;
copy-assigning a list to itself takes the `this != &source` guard and is a
no-op that changes nothing at all. -/
theorem claim_C7 {α : Type} [Inhabited α] {h : Heap α} {src : DList α}
    {ids : List Nat} (hwf : WFIds h src ids) :
    (∃ ids2,
      WFIds (copyCtor h src).1 (copyCtor h src).2 ids2 ∧
      itemsOf (copyCtor h src).1 ids2 = itemsOf h ids ∧
      (copyCtor h src).2.size = src.size ∧
      WFIds (copyCtor h src).1 src ids ∧
      itemsOf (copyCtor h src).1 ids = itemsOf h ids ∧
      (∀ p v, itemsOf (setPos (copyCtor h src).1 src p v) ids2
        = itemsOf (copyCtor h src).1 ids2) ∧
      (∀ p v, itemsOf (setPos (copyCtor h src).1 (copyCtor h src).2 p v) ids
        = itemsOf (copyCtor h src).1 ids)) ∧
    (∀ dst, assign h dst src false = copyCtor h src) ∧
    (∀ dst : DList α, assign h dst dst true = (h, dst)) := by
  obtain ⟨ids2, hW, hI, hfresh, hpres, hWsrc, hIsrc⟩ := _copy_spec hwf
  have hdisj : ∀ i, i ∈ ids → i ∉ ids2 := by
    intro i hi hmem
    have h1 := hwf.mem_valid hi
    have h2 := hfresh i hmem
    omega
  have hdisj2 : ∀ i, i ∈ ids2 → i ∉ ids := by
    intro i hi hmem
    have h1 := hwf.mem_valid hmem
    have h2 := hfresh i hi
    omega
  refine ⟨⟨ids2, hW, hI, ?_, hWsrc, hIsrc, ?_, ?_⟩, fun dst => rfl,
    fun dst => rfl⟩
  · show (_copy h src).2.size = src.size
    rw [hW.sizeEq, hwf.sizeEq]
    have h1 := length_itemsOf (_copy h src).1 ids2
    have h2 := length_itemsOf h ids
    rw [hI, h2] at h1
    rw [h1]
  · intro p v
    show itemsOf (setPos (_copy h src).1 src p v) ids2
      = itemsOf (_copy h src).1 ids2
    refine itemsOf_congr fun i hi => ?_
    unfold itemAt
    rw [setPos_frame hWsrc p v i (hdisj2 i hi)]
  · intro p v
    show itemsOf (setPos (_copy h src).1 (_copy h src).2 p v) ids
      = itemsOf (_copy h src).1 ids
    refine itemsOf_congr fun i hi => ?_
    unfold itemAt
    rw [setPos_frame hW p v i (hdisj i hi)]

/-- C8 (corrected): for a `start` below `2^63` — where the `size_t → long`
conversion the implementation applies to `start` preserves its value — and
a list whose length fits in a `long`, `index(x, start)` returns the
smallest position `p` with `start ≤ p < size` whose element equals `x` —
no earlier position at or after `start` matches — and the sentinel
`(size_t)(-1) = 2^64 - 1` when there is none; the sentinel differs from
every valid position.  The original claim quantified over every
non-negative `start` and is false of the program for `start ≥ 2^63`: the
conversion wraps, the scan starts at a tail-relative node and can return a
non-sentinel although no position `p ≥ start` exists, see the
counterexample. -/
theorem claim_C8 {α : Type} [Inhabited α] [DecidableEq α] {h : Heap α}
    {l : DList α} {ids : List Nat} (hwf : WFIds h l ids) (x : α)
    (start : Nat) (hstart : start < 2 ^ 63) (hlen : ids.length < 2 ^ 63) :
    (∀ d, firstIdxOf x ((itemsOf h ids).drop start) = some d →
      index h l x start = start + d ∧
      start + d < ids.length ∧
      (itemsOf h ids)[start + d]? = some x ∧
      (∀ p, start ≤ p → p < start + d → (itemsOf h ids)[p]? ≠ some x)) ∧
    (firstIdxOf x ((itemsOf h ids).drop start) = none →
      index h l x start = NOT_FOUND) ∧
    (ids.length < NOT_FOUND → ∀ p, p < ids.length → p ≠ NOT_FOUND) := by
  have hlitems : (itemsOf h ids).length = ids.length := length_itemsOf h ids
  have hspec := index_spec hwf x start hstart hlen
  refine ⟨?_, ?_, ?_⟩
  · intro d hd
    obtain ⟨hdx, hdfirst⟩ := firstIdxOf_some x _ d hd
    rw [List.getElem?_drop] at hdx
    have hdlen : start + d < ids.length := by
      have := (List.getElem?_eq_some_iff.mp hdx).1
      omega
    refine ⟨?_, hdlen, hdx, ?_⟩
    · rw [hspec, hd]
    · intro p hp1 hp2
      have := hdfirst (p - start) (by omega)
      rw [List.getElem?_drop, show start + (p - start) = p by omega] at this
      exact this
  · intro hnone
    rw [hspec, hnone]
  · intro hbound p hp
    omega

/-- C1: the structural invariant holds of the freshly constructed empty
list and is preserved by every operation — `append`, `insert`, `pop`,
`remove`, `clear`, self-`extend`, cross-`extend` (over disjoint chains),
copy construction and both branches of copy assignment — and on every
well-formed list it says exactly what the spec asks: size is zero iff head
is null iff tail is null; following `next` from head hits null after
exactly `size` steps, with the node after `size - 1` steps being the tail;
backward traversal from the tail counts the same `size` nodes; and
adjacent nodes' `next`/`prev` links are mutually consistent. -/
theorem claim_C1 {α : Type} [Inhabited α] [DecidableEq α] :
    WF ([] : Heap α) (DList.empty : DList α) ∧
    (∀ (h : Heap α) (l : DList α), WF h l →
      (∀ x, WF (append h l x).1 (append h l x).2) ∧
      (∀ position x,
        WF (insert h l position x).1 (insert h l position x).2) ∧
      (∀ position, WF (pop h l position).2.1 (pop h l position).2.2) ∧
      (∀ x, WF (remove h l x).1 (remove h l x).2) ∧
      WF h (clear l) ∧
      WF (extendSelf h l).1 (extendSelf h l).2 ∧
      WF (copyCtor h l).1 (copyCtor h l).2 ∧
      (∀ dst, WF (assign h dst l false).1 (assign h dst l false).2) ∧
      (∀ dst : DList α, WF h dst →
        WF (assign h dst dst true).1 (assign h dst dst true).2)) ∧
    (∀ (h : Heap α) (l other : DList α) (ids idsO : List Nat),
      WFIds h l ids → WFIds h other idsO → (∀ i, i ∈ idsO → i ∉ ids) →
      WF (extendOther h l other).1 (extendOther h l other).2) ∧
    (∀ (h : Heap α) (l : DList α), WF h l →
      (l.size = 0 ↔ l.head = none) ∧
      (l.size = 0 ↔ l.tail = none) ∧
      (∀ k : Nat, walkFwd h l.head k = none ↔ l.size ≤ (k : Int)) ∧
      (1 ≤ l.size → walkFwd h l.head (l.size.toNat - 1) = l.tail) ∧
      (∀ k : Nat, walkBwd h l.tail k = none ↔ l.size ≤ (k : Int)) ∧
      (∀ k i j, walkFwd h l.head k = some i →
        walkFwd h l.head (k + 1) = some j →
        nextAt h i = some (some j) ∧ prevAt h j = some (some i))) := by
  refine ⟨⟨[], rfl, rfl, rfl, List.nodup_nil,
      fun j hj => absurd hj (Nat.not_lt_zero j)⟩, ?_, ?_, ?_⟩
  · intro h l hWl
    obtain ⟨ids, hwf⟩ := hWl
    have hsize := hwf.sizeEq
    refine ⟨?_, ?_, ?_, ?_, ?_, ?_, ?_, ?_, ?_⟩
    · intro x
      exact ⟨ids ++ [h.length], (append_spec hwf x).1⟩
    · intro position x
      obtain ⟨hW, -, -, -, -⟩ := insert_spec hwf position x
      exact ⟨_, hW⟩
    · intro position
      by_cases hin : 0 ≤ (if position < 0 then position + l.size
          else position) ∧
          (if position < 0 then position + l.size else position) < l.size
      · obtain ⟨h0, h1⟩ := hin
        have hm : (if position < 0 then position + l.size else position)
            = (((if position < 0 then position + l.size
                else position).toNat : Nat) : Int) := by
          omega
        have hms : (if position < 0 then position + l.size
            else position).toNat < ids.length := by
          omega
        obtain ⟨-, hW, -⟩ := _delete_spec hwf hm hms
        exact ⟨_, hW⟩
      · have hout : pop h l position = (default, h, l) :=
          _delete_out h l position (by omega)
        rw [hout]
        exact ⟨ids, hwf⟩
    · intro x
      obtain ⟨hnone, hsome⟩ := remove_spec hwf x
      cases hc : firstIdxOf x (itemsOf h ids) with
      | none =>
        rw [hnone hc]
        exact ⟨ids, hwf⟩
      | some m =>
        obtain ⟨hW, -, -, -, -⟩ := hsome m hc
        exact ⟨_, hW⟩
    · exact ⟨[], rfl, rfl, rfl, List.nodup_nil,
        fun j hj => absurd hj (Nat.not_lt_zero j)⟩
    · obtain ⟨ids3, hW3, -⟩ := extendSelf_spec hwf
      exact ⟨ids3, hW3⟩
    · obtain ⟨ids2, hW, -, -, -, -, -⟩ := _copy_spec hwf
      exact ⟨ids2, hW⟩
    · intro dst
      obtain ⟨ids2, hW, -, -, -, -, -⟩ := _copy_spec hwf
      exact ⟨ids2, hW⟩
    · intro dst hWd
      exact hWd
  · intro h l other ids idsO hwf hwfO hdisj
    obtain ⟨ids2, hW, -, -, -⟩ := extendOther_spec hwf hwfO hdisj
    exact ⟨ids2, hW⟩
  · intro h l hWl
    obtain ⟨ids, hwf⟩ := hWl
    obtain ⟨p1, p2, p3, p4, p5⟩ := hwf.walk_props
    refine ⟨p1, p2, p3, p4, p5, ?_⟩
    have hfwd : ∀ k : Nat, walkFwd h l.head k = ids[k]? := by
      intro k
      rw [hwf.headEq, List.head?_eq_getElem?]
      have h0 := walkFwd_wf hwf k 0
      simpa using h0
    intro k i j hki hkj
    rw [hfwd k] at hki
    rw [hfwd (k + 1)] at hkj
    have hklen : k < ids.length := (List.getElem?_eq_some_iff.mp hki).1
    have hk1len : k + 1 < ids.length := (List.getElem?_eq_some_iff.mp hkj).1
    have hik : ids[k] = i := by
      rw [List.getElem?_eq_getElem hklen] at hki
      exact Option.some.inj hki
    have hjk : ids[k + 1] = j := by
      rw [List.getElem?_eq_getElem hk1len] at hkj
      exact Option.some.inj hkj
    constructor
    · have hn := hwf.nextOf hklen
      rw [List.getElem?_eq_getElem hk1len, hjk, hik] at hn
      exact hn
    · have hp := hwf.prevOf hk1len
      rw [if_neg (Nat.succ_ne_zero k)] at hp
      have hp2 : prevAt h ids[k + 1] = some ids[k]? := hp
      rw [List.getElem?_eq_getElem hklen, hik, hjk] at hp2
      exact hp2

/-! ## Closed instances of the claims -/

theorem claim_C1_witness :
    WFIds wHeap wList [0, 1] ∧
    WFIds wHeap3 wListA [0] ∧
    WFIds wHeap3 wListB [1, 2] ∧
    WF (append wHeap wList (9 : Int)).1 (append wHeap wList 9).2 ∧
    WF (pop wHeap wList (-1)).2.1 (pop wHeap wList (-1)).2.2 ∧
    WF (assign wHeap wList wList true).1 (assign wHeap wList wList true).2 ∧
    WF (extendOther wHeap3 wListA wListB).1
      (extendOther wHeap3 wListA wListB).2 ∧
    (wList.size = 0 ↔ wList.head = none) :=
  ⟨by decide, by decide, by decide,
   (claim_C1.2.1 wHeap wList ⟨[0, 1], by decide⟩).1 9,
   (claim_C1.2.1 wHeap wList ⟨[0, 1], by decide⟩).2.2.1 (-1),
   (claim_C1.2.1 wHeap wList ⟨[0, 1], by decide⟩).2.2.2.2.2.2.2.2 wList
     ⟨[0, 1], by decide⟩,
   claim_C1.2.2.1 wHeap3 wListA wListB [0] [1, 2] (by decide) (by decide)
     (by decide),
   (claim_C1.2.2.2 wHeap wList ⟨[0, 1], by decide⟩).1⟩

theorem claim_C2_witness :
    1 < ([(10 : Int), 20, 30]).length ∧
    (getPos (buildList [(10 : Int), 20, 30]).1
        (buildList [(10 : Int), 20, 30]).2 ((1 : Nat) : Int)
      = [(10 : Int), 20, 30][1] ∧
     getPos (buildList [(10 : Int), 20, 30]).1
        (buildList [(10 : Int), 20, 30]).2
        (((1 : Nat) : Int) - (([(10 : Int), 20, 30]).length : Int))
      = [(10 : Int), 20, 30][1]) :=
  ⟨by decide, claim_C2 [(10 : Int), 20, 30] 1 (by decide)⟩

theorem claim_C3_witness :
    WFIds wHeap wList [0, 1] ∧
    ((∃ ids2,
      WFIds (insert wHeap wList (-5) 99).1 (insert wHeap wList (-5) 99).2
        ids2 ∧
      itemsOf (insert wHeap wList (-5) 99).1 ids2
        = listInsertAt (itemsOf wHeap [0, 1])
            (clampPos wList.size (-5)).toNat 99 ∧
      (insert wHeap wList (-5) 99).2.size = wList.size + 1) ∧
    (wList.size ≤ -5 → insert wHeap wList (-5) 99 = append wHeap wList 99) ∧
    ((-5 : Int) < -wList.size →
      insert wHeap wList (-5) 99 = insert wHeap wList 0 99)) :=
  ⟨by decide, claim_C3 (show WFIds wHeap wList [0, 1] by decide) (-5) 99⟩

theorem claim_C4_witness :
    WFIds wHeap wList [0, 1] ∧
    (if (-1 : Int) < 0 then -1 + wList.size else -1) = ((1 : Nat) : Int) ∧
    ((pop wHeap wList (-1)).1 = itemAtD wHeap 1 ∧
     ∃ ids2,
       WFIds (pop wHeap wList (-1)).2.1 (pop wHeap wList (-1)).2.2 ids2 ∧
       itemsOf (pop wHeap wList (-1)).2.1 ids2
         = listEraseAt (itemsOf wHeap [0, 1]) 1 ∧
       (pop wHeap wList (-1)).2.2.size = wList.size - 1) :=
  ⟨by decide, by decide,
   (claim_C4 (show WFIds wHeap wList [0, 1] by decide) (-1)).1 1
     (by decide) (by decide)⟩

theorem claim_C5_witness :
    WFIds wHeap wList [0, 1] ∧
    firstIdxOf (8 : Int) (itemsOf wHeap [0, 1]) = some 1 ∧
    (itemsOf wHeap [0, 1])[1]? = some (8 : Int) ∧
    (∃ ids2,
      WFIds (remove wHeap wList 8).1 (remove wHeap wList 8).2 ids2 ∧
      itemsOf (remove wHeap wList 8).1 ids2
        = listEraseAt (itemsOf wHeap [0, 1]) 1 ∧
      (remove wHeap wList 8).2.size = wList.size - 1) := by
  have h := (claim_C5 (show WFIds wHeap wList [0, 1] by decide) 8).2 1
    (by decide)
  exact ⟨by decide, by decide, h.1, h.2.2⟩

theorem claim_C6_witness :
    WFIds wHeap3 wListA [0] ∧
    WFIds wHeap3 wListB [1, 2] ∧
    (∀ i, i ∈ ([1, 2] : List Nat) → i ∉ ([0] : List Nat)) ∧
    ((∃ ids2,
      WFIds (extendOther wHeap3 wListA wListB).1
        (extendOther wHeap3 wListA wListB).2 ids2 ∧
      itemsOf (extendOther wHeap3 wListA wListB).1 ids2
        = itemsOf wHeap3 [0] ++ itemsOf wHeap3 [1, 2]) ∧
    (WFIds (extendOther wHeap3 wListA wListB).1 wListB [1, 2] ∧
      itemsOf (extendOther wHeap3 wListA wListB).1 [1, 2]
        = itemsOf wHeap3 [1, 2]) ∧
    (∃ ids3,
      WFIds (extendSelf wHeap3 wListA).1 (extendSelf wHeap3 wListA).2 ids3 ∧
      itemsOf (extendSelf wHeap3 wListA).1 ids3
        = itemsOf wHeap3 [0] ++ itemsOf wHeap3 [0])) :=
  ⟨by decide, by decide, by decide,
   claim_C6 (show WFIds wHeap3 wListA [0] by decide)
     (show WFIds wHeap3 wListB [1, 2] by decide) (by decide)⟩

theorem claim_C7_witness :
    WFIds wHeap wList [0, 1] ∧
    (∃ ids2,
      WFIds (copyCtor wHeap wList).1 (copyCtor wHeap wList).2 ids2 ∧
      itemsOf (copyCtor wHeap wList).1 ids2 = itemsOf wHeap [0, 1] ∧
      (copyCtor wHeap wList).2.size = wList.size ∧
      WFIds (copyCtor wHeap wList).1 wList [0, 1] ∧
      itemsOf (copyCtor wHeap wList).1 [0, 1] = itemsOf wHeap [0, 1] ∧
      (∀ p v, itemsOf (setPos (copyCtor wHeap wList).1 wList p v) ids2
        = itemsOf (copyCtor wHeap wList).1 ids2) ∧
      (∀ p v,
        itemsOf (setPos (copyCtor wHeap wList).1 (copyCtor wHeap wList).2
          p v) [0, 1]
        = itemsOf (copyCtor wHeap wList).1 [0, 1])) :=
  ⟨by decide, (claim_C7 (show WFIds wHeap wList [0, 1] by decide)).1⟩

theorem claim_C8_witness :
    WFIds wHeap wList [0, 1] ∧
    (0 : Nat) < 2 ^ 63 ∧
    ([0, 1] : List Nat).length < 2 ^ 63 ∧
    firstIdxOf (8 : Int) ((itemsOf wHeap [0, 1]).drop 0) = some 1 ∧
    (index wHeap wList 8 0 = 0 + 1 ∧
     0 + 1 < ([0, 1] : List Nat).length ∧
     (itemsOf wHeap [0, 1])[0 + 1]? = some (8 : Int)) := by
  have h := (claim_C8 (show WFIds wHeap wList [0, 1] by decide) 8 0
    (by decide) (by decide)).1 1 (by decide)
  exact ⟨by decide, by decide, by decide, by decide, h.1, h.2.1, h.2.2.1⟩

/-- The wrap-region input refuting C8 as originally stated: on the list
`[7, 8]`, `start = 2^64 - 2` converts to the `long` `-2`, `_find` resolves
the head node, and the scan returns `2^64 - 2` — a non-sentinel — although
no position `p` with `start ≤ p < size` exists. -/
theorem claim_C8_cex :
    WFIds wHeap wList [0, 1] ∧
    firstIdxOf (7 : Int) ((itemsOf wHeap [0, 1]).drop (2 ^ 64 - 2))
      = none ∧
    index wHeap wList 7 (2 ^ 64 - 2) = 2 ^ 64 - 2 ∧
    index wHeap wList 7 (2 ^ 64 - 2) ≠ NOT_FOUND := by
  decide

theorem claim_C9_witness :
    WFIds wHeap wList [0, 1] ∧
    ((_find wHeap wList 1 = none ↔
        (wList.size ≤ 1 ∨ (1 : Int) < -wList.size)) ∧
     (-wList.size ≤ (1 : Int) → (1 : Int) < wList.size →
       ∃ i nd, _find wHeap wList 1 = some i ∧ wHeap[i]? = some nd ∧
         getPos wHeap wList 1 = nd.item)) :=
  ⟨by decide, claim_C9 (show WFIds wHeap wList [0, 1] by decide) 1⟩

theorem claim_C10_witness :
    wList.size ≤ ((5 : Nat) : Int) ∧
    (5 : Nat) < 2 ^ 63 ∧
    index wHeap wList (8 : Int) 5 = NOT_FOUND :=
  ⟨by decide, by decide, claim_C10 wHeap wList 8 5 (by decide) (by decide)⟩

/-- The wrap-region input refuting C10 as originally stated: on the list
`[7, 8]`, `start = 2^64 - 2` is at or past the end as a `size_t`, yet
`index` returns `2^64 - 2` instead of the sentinel, because the
`size_t → long` conversion sends it to `-2` and `_find` resolves the head
node. -/
theorem claim_C10_cex :
    wList.size ≤ ((2 ^ 64 - 2 : Nat) : Int) ∧
    index wHeap wList (7 : Int) (2 ^ 64 - 2) ≠ NOT_FOUND := by
  decide

end DListSpec
